import Mathlib

/-!
Verification of the hammer access-list engine (core crate).

Shallow embedding of the Rust sources:
  - `src/core/src/gas.rs`       : gas constants and `access_list_gas_cost`
  - `src/core/src/warm.rs`      : `precompile_addresses`
  - `src/core/src/types.rs`     : `DiffEntry`, `GasSummary`, `OptimizedAccessList`,
                                  `ValidationReport`, `RawTraceResult`
  - `src/core/src/optimizer.rs` : `optimize`
  - `src/core/src/validator.rs` : `validate`, `compute_no_list_cost`

Encoding choices.  A 20-byte `Address` and a 32-byte `B256` storage key are
modelled as natural numbers (the big-endian value of the bytes); bitwise
equality becomes equality on `Nat` and ascending byte order becomes the
order on `Nat`.  The precompile set `0x01..0x0a` is the set `{1, ..., 10}`
under this encoding and `Address::ZERO` is `0`.  `u64` quantities are
modelled as `Nat` (the gas formulas of the claims live far below `2^64`)
and the two signed summary fields (`i64` in the source) as `Int`.

Rust `BTreeMap<Address, BTreeSet<B256>>` is modelled as an association
list sorted strictly by key, with every value a strictly sorted list:
`mapInsert` is `BTreeMap::insert` (overwrite), `findSlots` is `get`,
`setInsert` is `BTreeSet::insert`, and iteration over the association
list coincides with the ascending iteration order of the B-tree.
-/

namespace Hammer

/-- `AccessListItem` from `alloy`: an address with its declared storage keys. -/
structure AccessListItem where
  address : Nat
  storage_keys : List Nat
deriving DecidableEq, Repr

/-- `AccessList`: ordered sequence of items. -/
abbrev AccessList := List AccessListItem

/-- `src/core/src/types.rs`: raw result from the tracer before optimization. -/
structure RawTraceResult where
  access_list : AccessList
  created_contracts : List Nat
  gas_used : Nat
  success : Bool
deriving DecidableEq, Repr

/-- `src/core/src/types.rs`: optimized access list plus removed addresses. -/
structure OptimizedAccessList where
  list : AccessList
  removed_addresses : List Nat
deriving DecidableEq, Repr

/-- `src/core/src/types.rs`: a single diff entry in a validation report. -/
inductive DiffEntry where
  | Missing (address : Nat) (storage_keys : List Nat) (gas_waste : Nat)
  | Stale (address : Nat) (storage_keys : List Nat) (gas_waste : Nat)
  | Incomplete (address : Nat) (missing_slots : List Nat) (gas_waste : Nat)
  | Redundant (address : Nat) (gas_waste : Nat)
  | Duplicate (address : Nat) (storage_key : Nat) (gas_waste : Nat)
deriving DecidableEq, Repr

/-- `DiffEntry::gas_waste` accessor from `src/core/src/types.rs`. -/
def DiffEntry.gas_waste : DiffEntry → Nat
  | .Missing _ _ w => w
  | .Stale _ _ w => w
  | .Incomplete _ _ w => w
  | .Redundant _ w => w
  | .Duplicate _ _ w => w

/-- `src/core/src/types.rs`: gas cost summary of a validation report. -/
structure GasSummary where
  declared_list_cost : Nat
  optimal_list_cost : Nat
  no_list_cost : Nat
  waste_per_tx : Int
  savings_vs_no_list : Int
deriving DecidableEq, Repr

/-- `src/core/src/types.rs`: full validation report. -/
structure ValidationReport where
  entries : List DiffEntry
  gas_summary : GasSummary
  optimal_list : AccessList
  is_valid : Bool
deriving DecidableEq, Repr

/-- `src/core/src/gas.rs`: upfront cost per address in a declared list. -/
def ACCESS_LIST_ADDRESS_COST : Nat := 2400

/-- `src/core/src/gas.rs`: upfront cost per storage key in a declared list. -/
def ACCESS_LIST_STORAGE_KEY_COST : Nat := 1900

/-- `src/core/src/gas.rs`: first (cold) touch of an account. -/
def COLD_ACCOUNT_ACCESS_COST : Nat := 2600

/-- `src/core/src/gas.rs`: first (cold) read of a storage slot. -/
def COLD_SLOAD_COST : Nat := 2100

/-- `src/core/src/gas.rs`: subsequent (warm) storage read. -/
def WARM_STORAGE_READ_COST : Nat := 100

/-- `src/core/src/warm.rs`: precompile addresses `0x01..=0x0a`, always warm. -/
def precompile_addresses : List Nat := [1, 2, 3, 4, 5, 6, 7, 8, 9, 10]

/-- `src/core/src/gas.rs` `access_list_gas_cost`: iterate items, charge the
address cost once per distinct address (a `HashSet` of seen addresses in the
source) and the storage-key cost for every storage key, duplicates included. -/
def access_list_gas_cost (list : AccessList) : Nat :=
  (list.foldl
    (fun (st : Nat × List Nat) item =>
      let withAddr :=
        if item.address ∈ st.2 then st
        else (st.1 + ACCESS_LIST_ADDRESS_COST, item.address :: st.2)
      (withAddr.1 + item.storage_keys.length * ACCESS_LIST_STORAGE_KEY_COST, withAddr.2))
    (0, [])).1

/-- `BTreeSet<B256>::insert` on the sorted-list model: insert in order,
keeping the list strictly sorted; no change when the key is present. -/
def setInsert (x : Nat) : List Nat → List Nat
  | [] => [x]
  | y :: ys => if x < y then x :: y :: ys else if x = y then y :: ys else y :: setInsert x ys

/-- Insert every element of `ks` (in order) into the sorted set `base`;
models `BTreeSet::extend` and slot-by-slot insertion loops. -/
def insertAllSlots (base : List Nat) (ks : List Nat) : List Nat :=
  ks.foldl (fun s k => setInsert k s) base

/-- `iter().copied().collect::<BTreeSet<_>>()`: the sorted set of a list. -/
def slotSetOf (ks : List Nat) : List Nat :=
  insertAllSlots [] ks

/-- Sorted association list modelling `BTreeMap<Address, BTreeSet<B256>>`. -/
abbrev SlotMap := List (Nat × List Nat)

/-- `BTreeMap::get` on the association-list model. -/
def findSlots (a : Nat) : SlotMap → Option (List Nat)
  | [] => none
  | (k, v) :: t => if a = k then some v else findSlots a t

/-- `BTreeMap::insert` (overwrite) on the sorted association-list model. -/
def mapInsert (a : Nat) (v : List Nat) : SlotMap → SlotMap
  | [] => [(a, v)]
  | (k, w) :: t =>
      if a < k then (a, v) :: (k, w) :: t
      else if a = k then (a, v) :: t
      else (k, w) :: mapInsert a v t

/-- The warm-by-default address set of `optimize`
(`src/core/src/optimizer.rs`): `{tx_from, tx_to, coinbase}` minus the zero
address. -/
def warmByDefault (tx_from tx_to coinbase : Nat) : List Nat :=
  ([tx_from, tx_to, coinbase]).filter (fun a => a ≠ 0)

/-- One item of the `optimize` loop: drop the item (recording its address)
when it is warm by default, a precompile, or a created contract; otherwise
merge its slot set into the sorted map. -/
def optStep (warm created : List Nat) (st : List Nat × SlotMap)
    (item : AccessListItem) : List Nat × SlotMap :=
  if item.address ∈ warm then (st.1 ++ [item.address], st.2)
  else if item.address ∈ precompile_addresses then (st.1 ++ [item.address], st.2)
  else if item.address ∈ created then (st.1 ++ [item.address], st.2)
  else
    let slots := slotSetOf item.storage_keys
    if slots ≠ [] ∨ findSlots item.address st.2 = none then
      (st.1, mapInsert item.address
        (insertAllSlots ((findSlots item.address st.2).getD []) slots) st.2)
    else st

/-- `src/core/src/optimizer.rs` `optimize`: strip warm-by-default addresses
(tx sender, target and coinbase minus the zero address, precompiles, created
contracts), merge remaining items into a sorted map, and serialize it back. -/
def optimize (raw : RawTraceResult) (tx_from tx_to coinbase : Nat) :
    OptimizedAccessList :=
  let st := raw.access_list.foldl
    (optStep (warmByDefault tx_from tx_to coinbase) raw.created_contracts) ([], [])
  { list := st.2.map (fun p => { address := p.1, storage_keys := p.2 })
    removed_addresses := st.1 }

/-- One slot of the phase-1 loop of `validate`
(`src/core/src/validator.rs`): `BTreeSet::insert` on the seen-slot set of
the current address, recording a `Duplicate` entry when the insert reports
the slot as already present. -/
def slotStep (address : Nat) (p : List Nat × List DiffEntry) (slot : Nat) :
    List Nat × List DiffEntry :=
  if slot ∈ p.1 then
    (p.1, p.2 ++ [.Duplicate address slot ACCESS_LIST_STORAGE_KEY_COST])
  else (setInsert slot p.1, p.2)

/-- One item of the phase-1 loop of `validate`: `entry(address).or_default()`
followed by the slot loop, then the updated set is stored back in the map. -/
def scanStep (st : SlotMap × List DiffEntry) (item : AccessListItem) :
    SlotMap × List DiffEntry :=
  let inner := item.storage_keys.foldl (slotStep item.address)
    ((findSlots item.address st.1).getD [], st.2)
  (mapInsert item.address inner.1 st.1, inner.2)

/-- Phase 1 of `validate` (`src/core/src/validator.rs`): walk the declared
list, building the deduplicated map and recording `Duplicate` entries each
time a slot is inserted twice under one address. -/
def scanDeclared (declared : AccessList) : SlotMap × List DiffEntry :=
  declared.foldl scanStep ([], [])

/-- Phase 2 of `validate`: index the optimal list as a `BTreeMap` from
address to slot set (`collect` on the item iterator, so on a repeated
address the later item overwrites the earlier one). -/
def optimalMapOf (list : AccessList) : SlotMap :=
  list.foldl (fun m i => mapInsert i.address (slotSetOf i.storage_keys) m) []

/-- Phase 3 of `validate`, for one declared address: `Redundant` when the
address is warm by default, otherwise `Incomplete` and `Stale` slot diffs
against the optimal map, or a whole-entry `Stale` when the address is not
in the optimal map at all. -/
def entriesForDeclared (tx_from tx_to coinbase : Nat) (optimal_map : SlotMap)
    (addr : Nat) (decl_slots : List Nat) : List DiffEntry :=
  if addr = tx_from ∨ addr = tx_to ∨ addr = coinbase ∨ addr ∈ precompile_addresses then
    [.Redundant addr
      (ACCESS_LIST_ADDRESS_COST + decl_slots.length * ACCESS_LIST_STORAGE_KEY_COST)]
  else
    match findSlots addr optimal_map with
    | some opt_slots =>
        let missing := opt_slots.filter (fun s => s ∉ decl_slots)
        let incompleteEntries : List DiffEntry :=
          if missing = [] then []
          else [.Incomplete addr missing
            (missing.length * (COLD_SLOAD_COST - WARM_STORAGE_READ_COST))]
        let stale := decl_slots.filter (fun s => s ∉ opt_slots)
        let staleEntries : List DiffEntry :=
          if stale = [] then []
          else [.Stale addr stale (stale.length * ACCESS_LIST_STORAGE_KEY_COST)]
        incompleteEntries ++ staleEntries
    | none =>
        [.Stale addr decl_slots
          (ACCESS_LIST_ADDRESS_COST + decl_slots.length * ACCESS_LIST_STORAGE_KEY_COST)]

/-- Phase 4 of `validate`: a `Missing` entry for every optimal address that
is absent from the declared map. -/
def missingEntries (declared_map optimal_map : SlotMap) : List DiffEntry :=
  optimal_map.flatMap
    (fun p =>
      if (findSlots p.1 declared_map).isSome then []
      else [.Missing p.1 p.2
        (p.2.length * (COLD_SLOAD_COST - WARM_STORAGE_READ_COST))])

/-- `src/core/src/validator.rs` `compute_no_list_cost`: cold cost of touching
every optimal address and slot with no access list at all. -/
def compute_no_list_cost (optimal_map : SlotMap) : Nat :=
  optimal_map.foldl
    (fun cost p => cost + COLD_ACCOUNT_ACCESS_COST + p.2.length * COLD_SLOAD_COST) 0

/-- `src/core/src/validator.rs` `validate`: diff a declared access list
against the optimal one and assemble the report. -/
def validate (declared : AccessList) (optimal : OptimizedAccessList)
    (tx_from tx_to coinbase : Nat) : ValidationReport :=
  let scanned := scanDeclared declared
  let declared_map := scanned.1
  let optimal_map := optimalMapOf optimal.list
  let entries :=
    scanned.2
      ++ declared_map.flatMap
        (fun p => entriesForDeclared tx_from tx_to coinbase optimal_map p.1 p.2)
      ++ missingEntries declared_map optimal_map
  let declared_list_cost := access_list_gas_cost declared
  let optimal_list_cost := access_list_gas_cost optimal.list
  let no_list_cost := compute_no_list_cost optimal_map
  { entries := entries
    gas_summary :=
      { declared_list_cost := declared_list_cost
        optimal_list_cost := optimal_list_cost
        no_list_cost := no_list_cost
        waste_per_tx := (declared_list_cost : Int) - (optimal_list_cost : Int)
        savings_vs_no_list := (no_list_cost : Int) - (optimal_list_cost : Int) }
    optimal_list := optimal.list
    is_valid := entries.isEmpty }

/-! ## Derived measures and classifiers used by the claims -/

/-- The key list of a slot map (`BTreeMap` keys, in iteration order). -/
def mapKeys (m : SlotMap) : List Nat := m.map Prod.fst

/-- Total number of slots stored in the values of a slot map. -/
def mapSize (m : SlotMap) : Nat := (m.map (fun p => p.2.length)).sum

/-- Total number of storage-key entries of a list, duplicates included. -/
def totalSlots (list : AccessList) : Nat :=
  (list.map (fun i => i.storage_keys.length)).sum

/-- Item addresses of an access list, in order and with repetitions. -/
def addrsOf (list : AccessList) : List Nat :=
  list.map (fun i => i.address)

/-- Number of items whose address is not yet in `seen`, threading the seen
set exactly as the `access_list_gas_cost` loop does. -/
def newCount : List Nat → AccessList → Nat
  | _, [] => 0
  | seen, i :: t =>
      if i.address ∈ seen then newCount seen t else 1 + newCount (i.address :: seen) t

/-- Sum of `gas_waste` over a list of diff entries. -/
def sumWaste (es : List DiffEntry) : Nat := (es.map DiffEntry.gas_waste).sum

/-- All storage keys declared under one address, in order of appearance. -/
def slotsUnder (l : AccessList) (b : Nat) : List Nat :=
  (l.filter (fun i => i.address = b)).flatMap (fun i => i.storage_keys)

/-- The (address, storage key) occurrences of an access list, in order. -/
def pairsOf (l : AccessList) : List (Nat × Nat) :=
  l.flatMap (fun i => i.storage_keys.map (fun k => (i.address, k)))

/-- The address carried by a diff entry. -/
def DiffEntry.address : DiffEntry → Nat
  | .Missing a _ _ => a
  | .Stale a _ _ => a
  | .Incomplete a _ _ => a
  | .Redundant a _ => a
  | .Duplicate a _ _ => a

/-- Kind test: `Missing`. -/
def DiffEntry.isMissing : DiffEntry → Bool
  | .Missing _ _ _ => true
  | _ => false

/-- Kind test: `Stale`. -/
def DiffEntry.isStale : DiffEntry → Bool
  | .Stale _ _ _ => true
  | _ => false

/-- Kind test: `Incomplete`. -/
def DiffEntry.isIncomplete : DiffEntry → Bool
  | .Incomplete _ _ _ => true
  | _ => false

/-- Kind test: `Redundant`. -/
def DiffEntry.isRedundant : DiffEntry → Bool
  | .Redundant _ _ => true
  | _ => false

/-- Kind test: `Duplicate`. -/
def DiffEntry.isDuplicate : DiffEntry → Bool
  | .Duplicate _ _ _ => true
  | _ => false

/-- An entry belongs to the upfront cost space (`Stale`, `Redundant`,
`Duplicate`) as opposed to the execution-penalty space. -/
def upfrontKind (e : DiffEntry) : Bool :=
  e.isStale || e.isRedundant || e.isDuplicate

/-- Sum of `gas_waste` over the `Stale`, `Redundant` and `Duplicate`
entries of a report: the upfront-waste side of the two-cost-space
invariant. -/
def upfrontWasteSum (es : List DiffEntry) : Nat :=
  ((es.filter upfrontKind).map DiffEntry.gas_waste).sum

/-- An address survives the `optimize` filters: it is not warm by default,
not a precompile, and not a created contract. -/
def keptAddr (warm created : List Nat) (b : Nat) : Prop :=
  b ∉ warm ∧ b ∉ precompile_addresses ∧ b ∉ created

/-! ## Sorted-set primitives: lemmas about `setInsert`, `insertAllSlots`, `slotSetOf` -/

theorem mem_setInsert {x k : Nat} {s : List Nat} :
    x ∈ setInsert k s ↔ x = k ∨ x ∈ s := by
  induction s with
  | nil => simp [setInsert]
  | cons y ys ih =>
      by_cases h1 : k < y
      · simp [setInsert, h1]
      · by_cases h2 : k = y
        · subst h2
          simp [setInsert, h1]
        · simp only [setInsert, if_neg h1, if_neg h2, List.mem_cons, ih]
          tauto

theorem setInsert_of_mem {k : Nat} {s : List Nat}
    (hs : s.Pairwise (· < ·)) (hk : k ∈ s) : setInsert k s = s := by
  induction s with
  | nil => cases hk
  | cons y ys ih =>
      rcases List.mem_cons.mp hk with rfl | hk2
      · simp [setInsert]
      · have hy : y < k := (List.pairwise_cons.mp hs).1 k hk2
        have h1 : ¬ k < y := by omega
        have h2 : ¬ k = y := by omega
        simp [setInsert, h1, h2, ih (List.pairwise_cons.mp hs).2 hk2]

theorem length_setInsert_of_not_mem {k : Nat} {s : List Nat} (hk : k ∉ s) :
    (setInsert k s).length = s.length + 1 := by
  induction s with
  | nil => simp [setInsert]
  | cons y ys ih =>
      have hky : k ≠ y := fun h => hk (h ▸ List.mem_cons_self _ _)
      by_cases h1 : k < y
      · simp [setInsert, h1]
      · have : k ∉ ys := fun h => hk (List.mem_cons_of_mem _ h)
        simp [setInsert, h1, hky, ih this]

theorem pairwise_setInsert {k : Nat} {s : List Nat} (hs : s.Pairwise (· < ·)) :
    (setInsert k s).Pairwise (· < ·) := by
  induction s with
  | nil => simp [setInsert]
  | cons y ys ih =>
      rcases List.pairwise_cons.mp hs with ⟨hy, hys⟩
      by_cases h1 : k < y
      · simp only [setInsert, if_pos h1]
        refine List.pairwise_cons.mpr ⟨?_, hs⟩
        intro b hb
        rcases List.mem_cons.mp hb with rfl | hb2
        · exact h1
        · exact lt_trans h1 (hy b hb2)
      · by_cases h2 : k = y
        · subst h2
          simpa [setInsert, h1] using hs
        · have hyk : y < k := by omega
          simp only [setInsert, if_neg h1, if_neg h2]
          refine List.pairwise_cons.mpr ⟨?_, ih hys⟩
          intro b hb
          rcases mem_setInsert.mp hb with rfl | hb2
          · exact hyk
          · exact hy b hb2


theorem setInsert_append_of_gt {k : Nat} {s : List Nat}
    (h : ∀ y ∈ s, y < k) : setInsert k s = s ++ [k] := by
  induction s with
  | nil => simp [setInsert]
  | cons y ys ih =>
      have hy : y < k := h y (List.mem_cons_self _ _)
      have h1 : ¬ k < y := by omega
      have h2 : ¬ k = y := by omega
      simp [setInsert, h1, h2, ih (fun b hb => h b (List.mem_cons_of_mem _ hb))]

theorem insertAllSlots_append (b : List Nat) (xs ys : List Nat) :
    insertAllSlots b (xs ++ ys) = insertAllSlots (insertAllSlots b xs) ys := by
  simp [insertAllSlots, List.foldl_append]

theorem mem_insertAllSlots {x : Nat} {b ks : List Nat} :
    x ∈ insertAllSlots b ks ↔ x ∈ b ∨ x ∈ ks := by
  induction ks generalizing b with
  | nil => simp [insertAllSlots]
  | cons k kt ih =>
      show x ∈ insertAllSlots (setInsert k b) kt ↔ _
      rw [ih]
      simp [mem_setInsert]
      tauto

theorem pairwise_insertAllSlots {b ks : List Nat} (hb : b.Pairwise (· < ·)) :
    (insertAllSlots b ks).Pairwise (· < ·) := by
  induction ks generalizing b with
  | nil => simpa [insertAllSlots] using hb
  | cons k kt ih => exact ih (pairwise_setInsert hb)

theorem mem_slotSetOf {x : Nat} {ks : List Nat} : x ∈ slotSetOf ks ↔ x ∈ ks := by
  simp [slotSetOf, mem_insertAllSlots]

theorem pairwise_slotSetOf (ks : List Nat) : (slotSetOf ks).Pairwise (· < ·) :=
  pairwise_insertAllSlots List.Pairwise.nil

theorem nodup_of_pairwise_lt {s : List Nat} (h : s.Pairwise (· < ·)) : s.Nodup :=
  h.imp (fun hab => Nat.ne_of_lt hab)

theorem length_insertAllSlots_of_disjoint {b ks : List Nat}
    (hnd : ks.Nodup) (hdisj : ∀ k ∈ ks, k ∉ b) :
    (insertAllSlots b ks).length = b.length + ks.length := by
  induction ks generalizing b with
  | nil => simp [insertAllSlots]
  | cons k kt ih =>
      show (insertAllSlots (setInsert k b) kt).length = _
      rcases List.nodup_cons.mp hnd with ⟨hk, hkt⟩
      have hlen := length_setInsert_of_not_mem (hdisj k (List.mem_cons_self _ _))
      have hdisj2 : ∀ x ∈ kt, x ∉ setInsert k b := by
        intro x hx hmem
        rcases mem_setInsert.mp hmem with rfl | h2
        · exact hk hx
        · exact hdisj x (List.mem_cons_of_mem _ hx) h2
      rw [ih hkt hdisj2, hlen, List.length_cons]
      omega

theorem length_slotSetOf_of_nodup {ks : List Nat} (h : ks.Nodup) :
    (slotSetOf ks).length = ks.length := by
  simpa using length_insertAllSlots_of_disjoint (b := []) h (by simp)

theorem length_slotSetOf_eq_dedup (ks : List Nat) :
    (slotSetOf ks).length = ks.dedup.length := by
  have hperm : (slotSetOf ks).Perm ks.dedup := by
    refine List.perm_of_nodup_nodup_toFinset_eq
      (nodup_of_pairwise_lt (pairwise_slotSetOf ks)) (List.nodup_dedup ks) ?_
    ext x
    simp [mem_slotSetOf, List.mem_dedup]
  exact hperm.length_eq

theorem insertAllSlots_eq_append {b ks : List Nat}
    (h : (b ++ ks).Pairwise (· < ·)) : insertAllSlots b ks = b ++ ks := by
  induction ks generalizing b with
  | nil => simp [insertAllSlots]
  | cons k kt ih =>
      show insertAllSlots (setInsert k b) kt = _
      have hbk : ∀ y ∈ b, y < k := by
        intro y hy
        exact (List.pairwise_append.mp h).2.2 y hy k (List.mem_cons_self _ _)
      rw [setInsert_append_of_gt hbk]
      have : ((b ++ [k]) ++ kt).Pairwise (· < ·) := by
        simpa [List.append_assoc] using h
      rw [ih this, List.append_assoc]
      rfl

theorem slotSetOf_eq_self {ks : List Nat} (h : ks.Pairwise (· < ·)) :
    slotSetOf ks = ks := by
  simpa using insertAllSlots_eq_append (b := []) (by simpa using h)

/-! ## Association-map primitives: lemmas about `findSlots` and `mapInsert` -/

theorem findSlots_mapInsert_self (a : Nat) (v : List Nat) (m : SlotMap) :
    findSlots a (mapInsert a v m) = some v := by
  induction m with
  | nil => simp [mapInsert, findSlots]
  | cons p t ih =>
      by_cases h1 : a < p.1
      · simp [mapInsert, h1, findSlots]
      · by_cases h2 : a = p.1
        · simp [mapInsert, h1, h2, findSlots]
        · simp [mapInsert, h1, h2, findSlots, ih]

theorem findSlots_mapInsert_ne {b a : Nat} (v : List Nat) (m : SlotMap)
    (hne : b ≠ a) : findSlots b (mapInsert a v m) = findSlots b m := by
  induction m with
  | nil => simp [mapInsert, findSlots, hne]
  | cons p t ih =>
      by_cases h1 : a < p.1
      · simp [mapInsert, h1, findSlots, hne]
      · by_cases h2 : a = p.1
        · subst h2
          simp [mapInsert, h1, findSlots, hne]
        · by_cases h3 : b = p.1
          · simp [mapInsert, h1, h2, findSlots, h3]
          · simp [mapInsert, h1, h2, findSlots, h3, ih]

theorem mapKeys_cons (p : Nat × List Nat) (t : SlotMap) :
    mapKeys (p :: t) = p.1 :: mapKeys t := rfl

theorem mapInsert_cons_lt {a : Nat} {v : List Nat} {p : Nat × List Nat} {t : SlotMap}
    (h : a < p.1) : mapInsert a v (p :: t) = (a, v) :: p :: t := by
  simp [mapInsert, h]

theorem mapInsert_cons_eq {a : Nat} {v : List Nat} {p : Nat × List Nat} {t : SlotMap}
    (h : a = p.1) : mapInsert a v (p :: t) = (a, v) :: t := by
  have h1 : ¬ a < p.1 := by omega
  simp [mapInsert, h1, h]

theorem mapInsert_cons_gt {a : Nat} {v : List Nat} {p : Nat × List Nat} {t : SlotMap}
    (h : p.1 < a) : mapInsert a v (p :: t) = p :: mapInsert a v t := by
  have h1 : ¬ a < p.1 := by omega
  have h2 : ¬ a = p.1 := by omega
  simp [mapInsert, h1, h2]

theorem findSlots_eq_none_iff {a : Nat} {m : SlotMap} :
    findSlots a m = none ↔ a ∉ mapKeys m := by
  induction m with
  | nil => simp [findSlots, mapKeys]
  | cons p t ih =>
      rw [mapKeys_cons]
      by_cases h : a = p.1
      · rw [findSlots, if_pos h]
        simp [h]
      · rw [findSlots, if_neg h, ih]
        simp [h]

theorem findSlots_isSome_iff {a : Nat} {m : SlotMap} :
    (findSlots a m).isSome = true ↔ a ∈ mapKeys m := by
  constructor
  · intro h
    by_contra hmem
    rw [findSlots_eq_none_iff.mpr hmem] at h
    simp at h
  · intro h
    rcases hf : findSlots a m with _ | v
    · exact absurd h (findSlots_eq_none_iff.mp hf)
    · simp

theorem mem_of_findSlots_eq_some {a : Nat} {v : List Nat} {m : SlotMap}
    (h : findSlots a m = some v) : (a, v) ∈ m := by
  induction m with
  | nil => simp [findSlots] at h
  | cons p t ih =>
      by_cases h1 : a = p.1
      · rw [findSlots, if_pos h1] at h
        rw [List.mem_cons]
        left
        rw [h1, (Option.some_inj.mp h).symm]
      · rw [findSlots, if_neg h1] at h
        exact List.mem_cons_of_mem _ (ih h)

theorem findSlots_of_mem_of_nodup {a : Nat} {v : List Nat} {m : SlotMap}
    (hnd : (mapKeys m).Nodup) (hmem : (a, v) ∈ m) : findSlots a m = some v := by
  induction m with
  | nil => cases hmem
  | cons p t ih =>
      rcases List.nodup_cons.mp hnd with ⟨hp, ht⟩
      rcases List.mem_cons.mp hmem with rfl | hmem2
      · simp [findSlots]
      · have hne : a ≠ p.1 := by
          intro h
          exact hp (h ▸ List.mem_map_of_mem Prod.fst hmem2)
        simp [findSlots, hne, ih ht hmem2]

theorem mem_mapKeys_mapInsert {b a : Nat} {v : List Nat} {m : SlotMap} :
    b ∈ mapKeys (mapInsert a v m) ↔ b = a ∨ b ∈ mapKeys m := by
  induction m with
  | nil => simp [mapInsert, mapKeys]
  | cons p t ih =>
      by_cases h1 : a < p.1
      · simp [mapInsert, h1, mapKeys]
      · by_cases h2 : a = p.1
        · subst h2
          simp [mapInsert, h1, mapKeys]
        · simp only [mapInsert, if_neg h1, if_neg h2]
          simp only [mapKeys, List.map_cons, List.mem_cons] at ih ⊢
          rw [ih]
          tauto

theorem pairwise_mapKeys_mapInsert {a : Nat} {v : List Nat} {m : SlotMap}
    (h : (mapKeys m).Pairwise (· < ·)) :
    (mapKeys (mapInsert a v m)).Pairwise (· < ·) := by
  induction m with
  | nil => simp [mapInsert, mapKeys]
  | cons p t ih =>
      rw [mapKeys_cons] at h
      have hp : ∀ b ∈ mapKeys t, p.1 < b := (List.pairwise_cons.mp h).1
      have ht : (mapKeys t).Pairwise (· < ·) := (List.pairwise_cons.mp h).2
      rcases Nat.lt_trichotomy a p.1 with h1 | h1 | h1
      · rw [mapInsert_cons_lt h1, mapKeys_cons, mapKeys_cons]
        refine List.pairwise_cons.mpr ⟨?_, List.pairwise_cons.mpr ⟨hp, ht⟩⟩
        intro b hb
        rcases List.mem_cons.mp hb with rfl | hb2
        · exact h1
        · exact lt_trans h1 (hp b hb2)
      · rw [mapInsert_cons_eq h1, mapKeys_cons]
        refine List.pairwise_cons.mpr ⟨?_, ht⟩
        intro b hb
        rw [h1]
        exact hp b hb
      · rw [mapInsert_cons_gt h1, mapKeys_cons]
        refine List.pairwise_cons.mpr ⟨?_, ih ht⟩
        intro b hb
        rcases mem_mapKeys_mapInsert.mp hb with rfl | hb2
        · exact h1
        · exact hp b hb2

theorem nodup_mapKeys_of_pairwise {m : SlotMap}
    (h : (mapKeys m).Pairwise (· < ·)) : (mapKeys m).Nodup :=
  nodup_of_pairwise_lt h

theorem values_mapInsert {P : List Nat → Prop} {a : Nat} {v : List Nat} {m : SlotMap}
    (hm : ∀ p ∈ m, P p.2) (hv : P v) : ∀ p ∈ mapInsert a v m, P p.2 := by
  induction m with
  | nil =>
      intro p hp
      simp only [mapInsert, List.mem_singleton] at hp
      rw [hp]
      exact hv
  | cons q t ih =>
      intro p hp
      rcases Nat.lt_trichotomy a q.1 with h1 | h1 | h1
      · rw [mapInsert_cons_lt h1] at hp
        rcases List.mem_cons.mp hp with rfl | h2
        · exact hv
        · exact hm p h2
      · rw [mapInsert_cons_eq h1] at hp
        rcases List.mem_cons.mp hp with rfl | h3
        · exact hv
        · exact hm p (List.mem_cons_of_mem _ h3)
      · rw [mapInsert_cons_gt h1] at hp
        rcases List.mem_cons.mp hp with rfl | h3
        · exact hm p (List.mem_cons_self _ _)
        · exact ih (fun r hr => hm r (List.mem_cons_of_mem _ hr)) p h3

theorem mapSize_cons (p : Nat × List Nat) (t : SlotMap) :
    mapSize (p :: t) = p.2.length + mapSize t := by
  simp [mapSize]

theorem mapSize_mapInsert {a : Nat} {v : List Nat} {m : SlotMap}
    (hsorted : (mapKeys m).Pairwise (· < ·)) :
    mapSize (mapInsert a v m) + ((findSlots a m).getD []).length
      = mapSize m + v.length := by
  induction m with
  | nil => simp [mapInsert, findSlots, mapSize]
  | cons p t ih =>
      rw [mapKeys_cons] at hsorted
      have hp : ∀ b ∈ mapKeys t, p.1 < b := (List.pairwise_cons.mp hsorted).1
      have ht : (mapKeys t).Pairwise (· < ·) := (List.pairwise_cons.mp hsorted).2
      rcases Nat.lt_trichotomy a p.1 with h1 | h1 | h1
      · have hne : a ≠ p.1 := by omega
        have hat : a ∉ mapKeys t := by
          intro hmem
          exact absurd (hp a hmem) (by omega)
        rw [mapInsert_cons_lt h1, findSlots, if_neg hne,
          findSlots_eq_none_iff.mpr hat, mapSize_cons, mapSize_cons]
        simp
        omega
      · rw [mapInsert_cons_eq h1, findSlots, if_pos h1, mapSize_cons, mapSize_cons]
        simp
        omega
      · have hne : a ≠ p.1 := by omega
        rw [mapInsert_cons_gt h1, findSlots, if_neg hne, mapSize_cons, mapSize_cons]
        have := ih ht
        omega

theorem length_mapInsert_of_not_mem {a : Nat} {v : List Nat} {m : SlotMap}
    (h : a ∉ mapKeys m) : (mapInsert a v m).length = m.length + 1 := by
  induction m with
  | nil => simp [mapInsert]
  | cons p t ih =>
      have hne : a ≠ p.1 := by
        intro hh
        exact h (hh ▸ List.mem_map_of_mem Prod.fst (List.mem_cons_self _ _))
      by_cases h1 : a < p.1
      · simp [mapInsert, h1]
      · have ht : a ∉ mapKeys t := by
          intro hh
          exact h (by simpa [mapKeys] using Or.inr (by simpa [mapKeys] using hh))
        simp [mapInsert, h1, hne, ih ht]

theorem mapSize_mapInsert_of_not_mem {a : Nat} {v : List Nat} {m : SlotMap}
    (hsorted : (mapKeys m).Pairwise (· < ·)) (h : a ∉ mapKeys m) :
    mapSize (mapInsert a v m) = mapSize m + v.length := by
  have := mapSize_mapInsert (a := a) (v := v) hsorted
  rw [findSlots_eq_none_iff.mpr h] at this
  simpa using this

theorem mapInsert_append_of_gt {a : Nat} {v : List Nat} {m : SlotMap}
    (h : ∀ k ∈ mapKeys m, k < a) : mapInsert a v m = m ++ [(a, v)] := by
  induction m with
  | nil => simp [mapInsert]
  | cons p t ih =>
      have hp : p.1 < a := h p.1 (List.mem_map_of_mem Prod.fst (List.mem_cons_self _ _))
      have h1 : ¬ a < p.1 := by omega
      have h2 : ¬ a = p.1 := by omega
      have ht : ∀ k ∈ mapKeys t, k < a := by
        intro k hk
        exact h k (by simpa [mapKeys] using Or.inr (by simpa [mapKeys] using hk))
      simp [mapInsert, h1, h2, ih ht]

/-! ## Closed form of `access_list_gas_cost` -/

theorem gas_fold (l : AccessList) (c : Nat) (seen : List Nat) :
    (l.foldl
      (fun (st : Nat × List Nat) item =>
        let withAddr :=
          if item.address ∈ st.2 then st
          else (st.1 + ACCESS_LIST_ADDRESS_COST, item.address :: st.2)
        (withAddr.1 + item.storage_keys.length * ACCESS_LIST_STORAGE_KEY_COST, withAddr.2))
      (c, seen)).1
    = c + ACCESS_LIST_ADDRESS_COST * newCount seen l
        + ACCESS_LIST_STORAGE_KEY_COST * totalSlots l := by
  induction l generalizing c seen with
  | nil => simp [totalSlots, newCount]
  | cons i t ih =>
      by_cases h : i.address ∈ seen
      · simp only [List.foldl_cons, if_pos h, newCount, totalSlots, List.map_cons,
          List.sum_cons]
        rw [ih]
        simp only [totalSlots]
        ring
      · simp only [List.foldl_cons, if_neg h, newCount, totalSlots, List.map_cons,
          List.sum_cons]
        rw [ih]
        simp only [totalSlots]
        ring

theorem countP_nodup_mem_split {x : Nat} {L : List Nat} {p q : Nat → Bool}
    (hnd : L.Nodup) (hx : x ∈ L) (hpq : ∀ a ∈ L, a ≠ x → p a = q a)
    (hpx : p x = true) (hqx : q x = false) :
    L.countP p = L.countP q + 1 := by
  induction L with
  | nil => cases hx
  | cons y T ih =>
      rcases List.nodup_cons.mp hnd with ⟨hy, hT⟩
      by_cases hyx : y = x
      · subst hyx
        have hxT : y ∉ T := hy
        have : T.countP p = T.countP q := by
          apply List.countP_congr
          intro a ha
          rw [hpq a (List.mem_cons_of_mem _ ha) (fun hax => hxT (hax ▸ ha))]
        simp [List.countP_cons, hpx, hqx, this]
      · have hxT : x ∈ T := by
          rcases List.mem_cons.mp hx with h | h
          · exact absurd h.symm hyx
          · exact h
        have hyy := hpq y (List.mem_cons_self _ _) hyx
        rw [List.countP_cons, List.countP_cons, hyy,
          ih hT hxT (fun a ha hax => hpq a (List.mem_cons_of_mem _ ha) hax)]
        omega

theorem newCount_eq_countP (l : AccessList) (seen : List Nat) :
    newCount seen l = (addrsOf l).dedup.countP (fun a => decide (a ∉ seen)) := by
  induction l generalizing seen with
  | nil => simp [newCount, addrsOf]
  | cons i t ih =>
      have haddrs : addrsOf (i :: t) = i.address :: addrsOf t := rfl
      by_cases hmem : i.address ∈ addrsOf t
      · rw [haddrs, List.dedup_cons_of_mem hmem]
        by_cases hs : i.address ∈ seen
        · simp only [newCount, if_pos hs]
          exact ih seen
        · simp only [newCount, if_neg hs]
          rw [ih (i.address :: seen)]
          have hsplit := countP_nodup_mem_split (x := i.address)
            (L := (addrsOf t).dedup)
            (p := fun a => decide (a ∉ seen))
            (q := fun a => decide (a ∉ i.address :: seen))
            (List.nodup_dedup _) (List.mem_dedup.mpr hmem) ?_ ?_ ?_
          · omega
          · intro a _ hax
            simp [List.mem_cons, hax]
          · simpa using hs
          · simp
      · rw [haddrs, List.dedup_cons_of_not_mem hmem]
        by_cases hs : i.address ∈ seen
        · simp only [newCount, if_pos hs]
          rw [List.countP_cons, ih seen]
          simp [hs]
        · simp only [newCount, if_neg hs]
          rw [List.countP_cons, ih (i.address :: seen)]
          have : ((addrsOf t).dedup).countP (fun a => decide (a ∉ i.address :: seen))
              = ((addrsOf t).dedup).countP (fun a => decide (a ∉ seen)) := by
            apply List.countP_congr
            intro a ha
            have : a ≠ i.address := fun h => hmem (h ▸ List.mem_dedup.mp ha)
            simp [List.mem_cons, this]
          rw [this]
          simp [hs]
          omega

theorem access_list_gas_cost_closed_form (list : AccessList) :
    access_list_gas_cost list
      = ACCESS_LIST_ADDRESS_COST * (addrsOf list).dedup.length
        + ACCESS_LIST_STORAGE_KEY_COST * totalSlots list := by
  show (list.foldl _ (0, [])).1 = _
  rw [gas_fold list 0 [], newCount_eq_countP]
  have : ((addrsOf list).dedup).countP (fun a => decide (a ∉ ([] : List Nat)))
      = ((addrsOf list).dedup).length := by
    simp
  rw [this]
  omega

/-! ## Invariants of the phase-1 scan -/

theorem sumWaste_append (xs ys : List DiffEntry) :
    sumWaste (xs ++ ys) = sumWaste xs + sumWaste ys := by
  simp [sumWaste]

theorem slotLoop_fst_of_sorted {a : Nat} {ks s : List Nat} {ds : List DiffEntry}
    (hs : s.Pairwise (· < ·)) :
    (ks.foldl (slotStep a) (s, ds)).1 = insertAllSlots s ks := by
  induction ks generalizing s ds with
  | nil => simp [insertAllSlots]
  | cons k kt ih =>
      by_cases h : k ∈ s
      · show (kt.foldl (slotStep a) (slotStep a (s, ds) k)).1 = _
        rw [show slotStep a (s, ds) k
            = (s, ds ++ [.Duplicate a k ACCESS_LIST_STORAGE_KEY_COST]) by
          simp [slotStep, h]]
        rw [ih hs]
        show insertAllSlots s kt = insertAllSlots (setInsert k s) kt
        rw [setInsert_of_mem hs h]
      · show (kt.foldl (slotStep a) (slotStep a (s, ds) k)).1 = _
        rw [show slotStep a (s, ds) k = (setInsert k s, ds) by simp [slotStep, h]]
        exact ih (pairwise_setInsert hs)

theorem slotLoop_fst_mem {x a : Nat} {ks s : List Nat} {ds : List DiffEntry} :
    x ∈ (ks.foldl (slotStep a) (s, ds)).1 ↔ x ∈ s ∨ x ∈ ks := by
  induction ks generalizing s ds with
  | nil => simp
  | cons k kt ih =>
      show x ∈ (kt.foldl (slotStep a) (slotStep a (s, ds) k)).1 ↔ _
      by_cases h : k ∈ s
      · rw [show slotStep a (s, ds) k
            = (s, ds ++ [.Duplicate a k ACCESS_LIST_STORAGE_KEY_COST]) by
          simp [slotStep, h]]
        rw [ih]
        constructor
        · rintro (hx | hx)
          · exact Or.inl hx
          · exact Or.inr (List.mem_cons_of_mem _ hx)
        · rintro (hx | hx)
          · exact Or.inl hx
          · rcases List.mem_cons.mp hx with rfl | hx2
            · exact Or.inl h
            · exact Or.inr hx2
      · rw [show slotStep a (s, ds) k = (setInsert k s, ds) by simp [slotStep, h]]
        rw [ih]
        simp only [mem_setInsert, List.mem_cons]
        tauto

theorem slotLoop_snd_mem {a : Nat} {ks s : List Nat} {ds : List DiffEntry} :
    ∀ e ∈ (ks.foldl (slotStep a) (s, ds)).2,
      e ∈ ds ∨ ∃ k, e = .Duplicate a k ACCESS_LIST_STORAGE_KEY_COST := by
  induction ks generalizing s ds with
  | nil =>
      intro e he
      exact Or.inl he
  | cons k kt ih =>
      intro e he
      rw [List.foldl_cons] at he
      by_cases h : k ∈ s
      · rw [show slotStep a (s, ds) k
            = (s, ds ++ [.Duplicate a k ACCESS_LIST_STORAGE_KEY_COST]) by
          simp [slotStep, h]] at he
        rcases ih e he with hd | hd
        · rcases List.mem_append.mp hd with hd2 | hd2
          · exact Or.inl hd2
          · exact Or.inr ⟨k, by simpa using hd2⟩
        · exact Or.inr hd
      · rw [show slotStep a (s, ds) k = (setInsert k s, ds) by simp [slotStep, h]] at he
        exact ih e he

theorem slotLoop_ledger {a : Nat} {ks s : List Nat} {ds : List DiffEntry} :
    sumWaste (ks.foldl (slotStep a) (s, ds)).2
      + ACCESS_LIST_STORAGE_KEY_COST * (ks.foldl (slotStep a) (s, ds)).1.length
    = sumWaste ds + ACCESS_LIST_STORAGE_KEY_COST * s.length
      + ACCESS_LIST_STORAGE_KEY_COST * ks.length := by
  induction ks generalizing s ds with
  | nil => simp
  | cons k kt ih =>
      rw [List.foldl_cons]
      by_cases h : k ∈ s
      · rw [show slotStep a (s, ds) k
            = (s, ds ++ [.Duplicate a k ACCESS_LIST_STORAGE_KEY_COST]) by
          simp [slotStep, h]]
        rw [ih]
        rw [sumWaste_append]
        simp [sumWaste, DiffEntry.gas_waste, List.length_cons]
        ring
      · rw [show slotStep a (s, ds) k = (setInsert k s, ds) by simp [slotStep, h]]
        rw [ih, length_setInsert_of_not_mem h, List.length_cons]
        ring

theorem slotLoop_snd_length_le {a : Nat} {ks s : List Nat} {ds : List DiffEntry} :
    ds.length ≤ (ks.foldl (slotStep a) (s, ds)).2.length := by
  induction ks generalizing s ds with
  | nil => simp
  | cons k kt ih =>
      show ds.length ≤ (kt.foldl (slotStep a) (slotStep a (s, ds) k)).2.length
      by_cases h : k ∈ s
      · rw [show slotStep a (s, ds) k
            = (s, ds ++ [.Duplicate a k ACCESS_LIST_STORAGE_KEY_COST]) by
          simp [slotStep, h]]
        calc ds.length ≤ (ds ++ [DiffEntry.Duplicate a k ACCESS_LIST_STORAGE_KEY_COST]).length := by
              simp
          _ ≤ _ := ih
      · rw [show slotStep a (s, ds) k = (setInsert k s, ds) by simp [slotStep, h]]
        exact ih

theorem slotLoop_no_dup {a : Nat} {ks s : List Nat} {ds : List DiffEntry}
    (h : (ks.foldl (slotStep a) (s, ds)).2.length = ds.length) :
    ks.Nodup ∧ ∀ k ∈ ks, k ∉ s := by
  induction ks generalizing s ds with
  | nil => simp
  | cons k kt ih =>
      rw [show (k :: kt).foldl (slotStep a) (s, ds)
          = kt.foldl (slotStep a) (slotStep a (s, ds) k) from rfl] at h
      by_cases hk : k ∈ s
      · exfalso
        rw [show slotStep a (s, ds) k
            = (s, ds ++ [.Duplicate a k ACCESS_LIST_STORAGE_KEY_COST]) by
          simp [slotStep, hk]] at h
        have hle := @slotLoop_snd_length_le a kt s
          (ds ++ [DiffEntry.Duplicate a k ACCESS_LIST_STORAGE_KEY_COST])
        rw [h] at hle
        simp at hle
      · rw [show slotStep a (s, ds) k = (setInsert k s, ds) by simp [slotStep, hk]] at h
        rcases ih h with ⟨hnd, hdisj⟩
        refine ⟨List.nodup_cons.mpr ⟨?_, hnd⟩, ?_⟩
        · intro hmem
          exact (hdisj k hmem) (mem_setInsert.mpr (Or.inl rfl))
        · intro x hx
          rcases List.mem_cons.mp hx with rfl | hx2
          · exact hk
          · intro hxs
            exact hdisj x hx2 (mem_setInsert.mpr (Or.inr hxs))

theorem start_sorted {st : SlotMap × List DiffEntry} {a : Nat}
    (hv : ∀ p ∈ st.1, p.2.Pairwise (· < ·)) :
    ((findSlots a st.1).getD []).Pairwise (· < ·) := by
  rcases hf : findSlots a st.1 with _ | v
  · simp
  · simpa using hv (a, v) (mem_of_findSlots_eq_some hf)

theorem findSlots_scanStep_self {st : SlotMap × List DiffEntry} {i : AccessListItem}
    (hv : ∀ p ∈ st.1, p.2.Pairwise (· < ·)) :
    findSlots i.address (scanStep st i).1
      = some (insertAllSlots ((findSlots i.address st.1).getD []) i.storage_keys) := by
  show findSlots i.address (mapInsert i.address _ st.1) = _
  rw [findSlots_mapInsert_self, slotLoop_fst_of_sorted (start_sorted hv)]

theorem findSlots_scanStep_ne {st : SlotMap × List DiffEntry} {i : AccessListItem}
    {b : Nat} (hne : b ≠ i.address) :
    findSlots b (scanStep st i).1 = findSlots b st.1 :=
  findSlots_mapInsert_ne _ _ hne

theorem scanStep_inv {st : SlotMap × List DiffEntry} {i : AccessListItem}
    (hk : (mapKeys st.1).Pairwise (· < ·))
    (hv : ∀ p ∈ st.1, p.2.Pairwise (· < ·)) :
    (mapKeys (scanStep st i).1).Pairwise (· < ·)
      ∧ ∀ p ∈ (scanStep st i).1, p.2.Pairwise (· < ·) := by
  constructor
  · exact pairwise_mapKeys_mapInsert hk
  · apply values_mapInsert hv
    rw [slotLoop_fst_of_sorted (start_sorted hv)]
    exact pairwise_insertAllSlots (start_sorted hv)

theorem scan_inv {l : AccessList} {st : SlotMap × List DiffEntry}
    (hk : (mapKeys st.1).Pairwise (· < ·))
    (hv : ∀ p ∈ st.1, p.2.Pairwise (· < ·)) :
    (mapKeys (l.foldl scanStep st).1).Pairwise (· < ·)
      ∧ ∀ p ∈ (l.foldl scanStep st).1, p.2.Pairwise (· < ·) := by
  induction l generalizing st with
  | nil => exact ⟨hk, hv⟩
  | cons i t ih =>
      rw [List.foldl_cons]
      exact ih (scanStep_inv hk hv).1 (scanStep_inv hk hv).2

theorem scan_ledger {l : AccessList} {st : SlotMap × List DiffEntry}
    (hk : (mapKeys st.1).Pairwise (· < ·))
    (hv : ∀ p ∈ st.1, p.2.Pairwise (· < ·)) :
    sumWaste (l.foldl scanStep st).2
      + ACCESS_LIST_STORAGE_KEY_COST * mapSize (l.foldl scanStep st).1
    = sumWaste st.2 + ACCESS_LIST_STORAGE_KEY_COST * mapSize st.1
      + ACCESS_LIST_STORAGE_KEY_COST * totalSlots l := by
  induction l generalizing st with
  | nil => simp [totalSlots]
  | cons i t ih =>
      rw [List.foldl_cons]
      rw [ih (scanStep_inv hk hv).1 (scanStep_inv hk hv).2]
      have hstep : sumWaste (scanStep st i).2
          + ACCESS_LIST_STORAGE_KEY_COST * mapSize (scanStep st i).1
          = sumWaste st.2 + ACCESS_LIST_STORAGE_KEY_COST * mapSize st.1
            + ACCESS_LIST_STORAGE_KEY_COST * i.storage_keys.length := by
        have hinner := @slotLoop_ledger i.address i.storage_keys
          ((findSlots i.address st.1).getD []) st.2
        have hmap := mapSize_mapInsert
          (a := i.address)
          (v := (i.storage_keys.foldl (slotStep i.address)
            ((findSlots i.address st.1).getD [], st.2)).1)
          (m := st.1) hk
        show sumWaste (i.storage_keys.foldl (slotStep i.address)
            ((findSlots i.address st.1).getD [], st.2)).2
          + ACCESS_LIST_STORAGE_KEY_COST * mapSize (mapInsert i.address _ st.1) = _
        simp only [ACCESS_LIST_STORAGE_KEY_COST] at hinner hmap ⊢
        omega
      have htot : totalSlots (i :: t) = i.storage_keys.length + totalSlots t := by
        simp [totalSlots]
      simp only [ACCESS_LIST_STORAGE_KEY_COST] at hstep htot ⊢
      omega

theorem scan_keys_mem {b : Nat} {l : AccessList} {st : SlotMap × List DiffEntry} :
    b ∈ mapKeys (l.foldl scanStep st).1 ↔ b ∈ mapKeys st.1 ∨ b ∈ addrsOf l := by
  induction l generalizing st with
  | nil => simp [addrsOf]
  | cons i t ih =>
      rw [List.foldl_cons, ih]
      show _ ∨ _ ↔ _ ∨ b ∈ i.address :: addrsOf t
      rw [show (scanStep st i).1 = mapInsert i.address _ st.1 from rfl]
      rw [show (b ∈ mapKeys (mapInsert i.address
        ((i.storage_keys.foldl (slotStep i.address)
          ((findSlots i.address st.1).getD [], st.2)).1) st.1))
        = (b = i.address ∨ b ∈ mapKeys st.1) from propext mem_mapKeys_mapInsert]
      rw [List.mem_cons]
      tauto

theorem scan_snd_mem {l : AccessList} {st : SlotMap × List DiffEntry} :
    ∀ e ∈ (l.foldl scanStep st).2,
      e ∈ st.2 ∨ ∃ a k, e = .Duplicate a k ACCESS_LIST_STORAGE_KEY_COST := by
  induction l generalizing st with
  | nil =>
      intro e he
      exact Or.inl he
  | cons i t ih =>
      intro e he
      rw [List.foldl_cons] at he
      rcases ih e he with hd | hd
      · rcases slotLoop_snd_mem e hd with hd2 | hd2
        · exact Or.inl hd2
        · rcases hd2 with ⟨k, hk⟩
          exact Or.inr ⟨i.address, k, hk⟩
      · exact Or.inr hd

theorem slotsUnder_cons_self (i : AccessListItem) (t : AccessList) :
    slotsUnder (i :: t) i.address = i.storage_keys ++ slotsUnder t i.address := by
  simp [slotsUnder]

theorem slotsUnder_cons_ne {i : AccessListItem} {t : AccessList} {b : Nat}
    (hne : i.address ≠ b) : slotsUnder (i :: t) b = slotsUnder t b := by
  simp [slotsUnder, List.filter_cons, hne]

theorem slotsUnder_eq_nil_of_not_mem {t : AccessList} {b : Nat}
    (h : b ∉ addrsOf t) : slotsUnder t b = [] := by
  have : t.filter (fun i => i.address = b) = [] := by
    rw [List.filter_eq_nil_iff]
    intro i hi
    simp only [decide_eq_true_eq]
    intro hb
    exact h (hb ▸ List.mem_map_of_mem _ hi)
  simp [slotsUnder, this]

theorem scan_find {b : Nat} {l : AccessList} {st : SlotMap × List DiffEntry}
    (hk : (mapKeys st.1).Pairwise (· < ·))
    (hv : ∀ p ∈ st.1, p.2.Pairwise (· < ·)) :
    findSlots b (l.foldl scanStep st).1
      = if b ∈ addrsOf l
        then some (insertAllSlots ((findSlots b st.1).getD []) (slotsUnder l b))
        else findSlots b st.1 := by
  induction l generalizing st with
  | nil => simp [addrsOf]
  | cons i t ih =>
      rw [List.foldl_cons]
      rw [ih (scanStep_inv hk hv).1 (scanStep_inv hk hv).2]
      by_cases hb : i.address = b
      · subst hb
        rw [findSlots_scanStep_self hv]
        have hmem : i.address ∈ addrsOf (i :: t) := List.mem_cons_self _ _
        rw [if_pos hmem, slotsUnder_cons_self, insertAllSlots_append]
        by_cases ht : i.address ∈ addrsOf t
        · rw [if_pos ht]
          simp
        · rw [if_neg ht, slotsUnder_eq_nil_of_not_mem ht]
          simp [insertAllSlots]
      · rw [findSlots_scanStep_ne (Ne.symm hb)]
        by_cases ht : b ∈ addrsOf t
        · have hm : b ∈ addrsOf (i :: t) := by
            show b ∈ i.address :: addrsOf t
            exact List.mem_cons_of_mem _ ht
          rw [if_pos ht, if_pos hm, slotsUnder_cons_ne hb]
        · have hm : b ∉ addrsOf (i :: t) := by
            intro hmem
            rcases List.mem_cons.mp (show b ∈ i.address :: addrsOf t from hmem)
              with h1 | h2
            · exact hb h1.symm
            · exact ht h2
          rw [if_neg ht, if_neg hm]

theorem scan_snd_length_le {l : AccessList} {st : SlotMap × List DiffEntry} :
    st.2.length ≤ (l.foldl scanStep st).2.length := by
  induction l generalizing st with
  | nil => simp
  | cons i t ih =>
      rw [List.foldl_cons]
      calc st.2.length
          ≤ (scanStep st i).2.length := slotLoop_snd_length_le
        _ ≤ _ := ih

theorem scan_no_new_dups {l : AccessList} {st : SlotMap × List DiffEntry}
    (h : (l.foldl scanStep st).2.length = st.2.length) :
    (pairsOf l).Nodup
      ∧ ∀ pr ∈ pairsOf l, pr.2 ∉ (findSlots pr.1 st.1).getD [] := by
  induction l generalizing st with
  | nil => simp [pairsOf]
  | cons i t ih =>
      rw [List.foldl_cons] at h
      have hmid : (scanStep st i).2.length = st.2.length := by
        have h1 : st.2.length ≤ (scanStep st i).2.length := slotLoop_snd_length_le
        have h2 : (scanStep st i).2.length
            ≤ (t.foldl scanStep (scanStep st i)).2.length := scan_snd_length_le
        omega
      have hinner := @slotLoop_no_dup i.address i.storage_keys
        ((findSlots i.address st.1).getD []) st.2 hmid
      have hrest := @ih (scanStep st i) (by rw [h, hmid])
      have hfind_self : findSlots i.address (scanStep st i).1
          = some (i.storage_keys.foldl (slotStep i.address)
              ((findSlots i.address st.1).getD [], st.2)).1 :=
        findSlots_mapInsert_self _ _ _
      have hsub : ∀ b k, k ∈ (findSlots b st.1).getD []
          → k ∈ (findSlots b (scanStep st i).1).getD [] := by
        intro b k hk
        by_cases hb : b = i.address
        · subst hb
          rw [hfind_self]
          exact slotLoop_fst_mem.mpr (Or.inl hk)
        · rw [findSlots_scanStep_ne hb]
          exact hk
      have hpairs : pairsOf (i :: t)
          = i.storage_keys.map (fun k => (i.address, k)) ++ pairsOf t := by
        simp [pairsOf]
      constructor
      · rw [hpairs, List.nodup_append]
        refine ⟨?_, hrest.1, ?_⟩
        · exact hinner.1.map (fun k1 k2 hk => by simpa using hk)
        · intro pr hpr1 hpr2
          rcases List.mem_map.mp hpr1 with ⟨k, hk, rfl⟩
          have := hrest.2 _ hpr2
          rw [hfind_self] at this
          simp only [Option.getD_some] at this
          exact this (slotLoop_fst_mem.mpr (Or.inr hk))
      · intro pr hpr
        rw [hpairs] at hpr
        rcases List.mem_append.mp hpr with hp | hp
        · rcases List.mem_map.mp hp with ⟨k, hk, rfl⟩
          exact hinner.2 k hk
        · intro hmem
          exact hrest.2 pr hp (hsub pr.1 pr.2 hmem)

/-! ## Entry classifiers and the upfront-waste measure -/

theorem upfrontWasteSum_append (xs ys : List DiffEntry) :
    upfrontWasteSum (xs ++ ys) = upfrontWasteSum xs + upfrontWasteSum ys := by
  simp [upfrontWasteSum]

theorem upfrontWasteSum_flatMap {α : Type} (D : List α) (g : α → List DiffEntry) :
    upfrontWasteSum (D.flatMap g) = (D.map (fun p => upfrontWasteSum (g p))).sum := by
  induction D with
  | nil => simp [upfrontWasteSum]
  | cons p t ih => simp [List.flatMap_cons, upfrontWasteSum_append, ih]

/-! ## Phase 3 and phase 4 entry shapes -/

theorem entriesForDeclared_address_kind {f t c : Nat} {M : SlotMap} {a : Nat}
    {s : List Nat} :
    ∀ e ∈ entriesForDeclared f t c M a s,
      e.address = a ∧ e.isMissing = false ∧ e.isDuplicate = false := by
  intro e he
  unfold entriesForDeclared at he
  by_cases hw : a = f ∨ a = t ∨ a = c ∨ a ∈ precompile_addresses
  · rw [if_pos hw] at he
    rcases List.mem_singleton.mp he with rfl
    simp [DiffEntry.address, DiffEntry.isMissing, DiffEntry.isDuplicate]
  · rw [if_neg hw] at he
    rcases hfind : findSlots a M with _ | O
    · rw [hfind] at he
      rcases List.mem_singleton.mp he with rfl
      simp [DiffEntry.address, DiffEntry.isMissing, DiffEntry.isDuplicate]
    · rw [hfind] at he
      simp only at he
      rcases List.mem_append.mp he with h1 | h1
      · by_cases hm : O.filter (fun x => x ∉ s) = []
        · rw [if_pos hm] at h1
          cases h1
        · rw [if_neg hm] at h1
          rcases List.mem_singleton.mp h1 with rfl
          simp [DiffEntry.address, DiffEntry.isMissing, DiffEntry.isDuplicate]
      · by_cases hs : s.filter (fun x => x ∉ O) = []
        · rw [if_pos hs] at h1
          cases h1
        · rw [if_neg hs] at h1
          rcases List.mem_singleton.mp h1 with rfl
          simp [DiffEntry.address, DiffEntry.isMissing, DiffEntry.isDuplicate]

theorem entriesForDeclared_warm {f t c : Nat} {M : SlotMap} {a : Nat} {s : List Nat}
    (hw : a = f ∨ a = t ∨ a = c ∨ a ∈ precompile_addresses) :
    entriesForDeclared f t c M a s
      = [.Redundant a
          (ACCESS_LIST_ADDRESS_COST + s.length * ACCESS_LIST_STORAGE_KEY_COST)] := by
  unfold entriesForDeclared
  rw [if_pos hw]

theorem entriesForDeclared_absent {f t c : Nat} {M : SlotMap} {a : Nat} {s : List Nat}
    (hw : ¬(a = f ∨ a = t ∨ a = c ∨ a ∈ precompile_addresses))
    (hfind : findSlots a M = none) :
    entriesForDeclared f t c M a s
      = [.Stale a s
          (ACCESS_LIST_ADDRESS_COST + s.length * ACCESS_LIST_STORAGE_KEY_COST)] := by
  unfold entriesForDeclared
  rw [if_neg hw, hfind]

theorem entriesForDeclared_opt {f t c : Nat} {M : SlotMap} {a : Nat} {s O : List Nat}
    (hw : ¬(a = f ∨ a = t ∨ a = c ∨ a ∈ precompile_addresses))
    (hfind : findSlots a M = some O) :
    entriesForDeclared f t c M a s
      = (if O.filter (fun x => x ∉ s) = [] then []
         else [.Incomplete a (O.filter (fun x => x ∉ s))
           ((O.filter (fun x => x ∉ s)).length
             * (COLD_SLOAD_COST - WARM_STORAGE_READ_COST))])
        ++ (if s.filter (fun x => x ∉ O) = [] then []
            else [.Stale a (s.filter (fun x => x ∉ O))
              ((s.filter (fun x => x ∉ O)).length * ACCESS_LIST_STORAGE_KEY_COST)]) := by
  unfold entriesForDeclared
  rw [if_neg hw, hfind]

theorem upfront_entriesForDeclared_warm {f t c : Nat} {M : SlotMap} {a : Nat}
    {s : List Nat} (hw : a = f ∨ a = t ∨ a = c ∨ a ∈ precompile_addresses) :
    upfrontWasteSum (entriesForDeclared f t c M a s)
      = ACCESS_LIST_ADDRESS_COST + s.length * ACCESS_LIST_STORAGE_KEY_COST := by
  rw [entriesForDeclared_warm hw]
  simp [upfrontWasteSum, upfrontKind, DiffEntry.isStale, DiffEntry.isRedundant,
    DiffEntry.isDuplicate, DiffEntry.gas_waste]

theorem upfront_entriesForDeclared_absent {f t c : Nat} {M : SlotMap} {a : Nat}
    {s : List Nat} (hw : ¬(a = f ∨ a = t ∨ a = c ∨ a ∈ precompile_addresses))
    (hfind : findSlots a M = none) :
    upfrontWasteSum (entriesForDeclared f t c M a s)
      = ACCESS_LIST_ADDRESS_COST + s.length * ACCESS_LIST_STORAGE_KEY_COST := by
  rw [entriesForDeclared_absent hw hfind]
  simp [upfrontWasteSum, upfrontKind, DiffEntry.isStale, DiffEntry.isRedundant,
    DiffEntry.isDuplicate, DiffEntry.gas_waste]

theorem upfront_entriesForDeclared_opt {f t c : Nat} {M : SlotMap} {a : Nat}
    {s O : List Nat} (hw : ¬(a = f ∨ a = t ∨ a = c ∨ a ∈ precompile_addresses))
    (hfind : findSlots a M = some O) :
    upfrontWasteSum (entriesForDeclared f t c M a s)
      = (s.filter (fun x => x ∉ O)).length * ACCESS_LIST_STORAGE_KEY_COST := by
  rw [entriesForDeclared_opt hw hfind, upfrontWasteSum_append]
  have hInc : ∀ (L : List Nat) (w : Nat),
      upfrontWasteSum (if L = [] then [] else [DiffEntry.Incomplete a L w]) = 0 := by
    intro L w
    by_cases hL : L = []
    · simp [hL, upfrontWasteSum]
    · simp [hL, upfrontWasteSum, upfrontKind, DiffEntry.isStale, DiffEntry.isRedundant,
        DiffEntry.isDuplicate, DiffEntry.isIncomplete]
  have hSt : ∀ (L : List Nat),
      upfrontWasteSum (if L = [] then []
        else [DiffEntry.Stale a L (L.length * ACCESS_LIST_STORAGE_KEY_COST)])
      = L.length * ACCESS_LIST_STORAGE_KEY_COST := by
    intro L
    by_cases hL : L = []
    · simp [hL, upfrontWasteSum]
    · simp [hL, upfrontWasteSum, upfrontKind, DiffEntry.isStale, DiffEntry.isRedundant,
        DiffEntry.isDuplicate, DiffEntry.gas_waste]
  rw [hInc, hSt]
  omega

theorem missingEntries_shape {D M : SlotMap} :
    ∀ e ∈ missingEntries D M,
      ∃ p ∈ M, e = .Missing p.1 p.2
          (p.2.length * (COLD_SLOAD_COST - WARM_STORAGE_READ_COST))
        ∧ findSlots p.1 D = none := by
  intro e he
  rcases List.mem_flatMap.mp he with ⟨p, hp, hep⟩
  by_cases hf : (findSlots p.1 D).isSome
  · rw [if_pos hf] at hep
    cases hep
  · rw [if_neg hf] at hep
    refine ⟨p, hp, List.mem_singleton.mp hep, ?_⟩
    rcases hd : findSlots p.1 D with _ | v
    · rfl
    · exact absurd (by simp [hd]) hf

theorem missingEntries_mem {D M : SlotMap} {p : Nat × List Nat}
    (hp : p ∈ M) (hf : findSlots p.1 D = none) :
    DiffEntry.Missing p.1 p.2
        (p.2.length * (COLD_SLOAD_COST - WARM_STORAGE_READ_COST))
      ∈ missingEntries D M := by
  apply List.mem_flatMap.mpr
  refine ⟨p, hp, ?_⟩
  rw [if_neg (by simp [hf])]
  exact List.mem_singleton.mpr rfl

theorem upfront_missingEntries (D M : SlotMap) :
    upfrontWasteSum (missingEntries D M) = 0 := by
  have : (missingEntries D M).filter upfrontKind = [] := by
    rw [List.filter_eq_nil_iff]
    intro e he
    rcases missingEntries_shape e he with ⟨p, _, rfl, _⟩
    simp [upfrontKind, DiffEntry.isStale, DiffEntry.isRedundant, DiffEntry.isDuplicate]
  simp [upfrontWasteSum, this]

/-! ## Counting lemmas used by the gas accounting -/

theorem length_filter_split (p : Nat → Bool) (s : List Nat) :
    (s.filter p).length + (s.filter (fun x => !(p x))).length = s.length := by
  induction s with
  | nil => simp
  | cons y t ih =>
      by_cases h : p y
      · simp [List.filter_cons, h]
        omega
      · simp [List.filter_cons, h]
        omega

theorem length_filter_not_mem_add {s O : List Nat}
    (hs : s.Nodup) (hO : O.Nodup) (hsub : ∀ x ∈ O, x ∈ s) :
    (s.filter (fun x => decide (x ∉ O))).length + O.length = s.length := by
  have hperm : (s.filter (fun x => decide (x ∈ O))).Perm O := by
    refine List.perm_of_nodup_nodup_toFinset_eq (hs.filter _) hO ?_
    ext x
    simp only [List.mem_toFinset, List.mem_filter, decide_eq_true_eq]
    exact ⟨fun h => h.2, fun h => ⟨hsub x h, h⟩⟩
  have hneg : (s.filter (fun x => decide (x ∉ O)))
      = s.filter (fun x => !(decide (x ∈ O))) := by
    apply List.filter_congr
    intro x _
    simp
  rw [hneg, ← hperm.length_eq]
  have := length_filter_split (fun x => decide (x ∈ O)) s
  omega

theorem sum_map_filter_of_zero {L : List Nat} {q : Nat → Bool} {g : Nat → Nat}
    (h : ∀ a ∈ L, q a = false → g a = 0) :
    ((L.filter q).map g).sum = (L.map g).sum := by
  induction L with
  | nil => simp
  | cons y t ih =>
      have ht : ∀ a ∈ t, q a = false → g a = 0 :=
        fun a ha => h a (List.mem_cons_of_mem _ ha)
      by_cases hy : q y
      · simp [List.filter_cons, hy, ih ht]
      · have : g y = 0 := h y (List.mem_cons_self _ _) (by simpa using hy)
        simp [List.filter_cons, hy, ih ht, this]

theorem sum_map_const_add (D : SlotMap) (A K : Nat) :
    (D.map (fun p => A + K * p.2.length)).sum = A * D.length + K * mapSize D := by
  induction D with
  | nil => simp [mapSize]
  | cons p t ih =>
      simp only [List.map_cons, List.sum_cons, ih, mapSize_cons, List.length_cons]
      ring

theorem filter_isSome_perm {D M : SlotMap}
    (hndD : (mapKeys D).Nodup) (hndM : (mapKeys M).Nodup)
    (hsub : ∀ a ∈ mapKeys M, a ∈ mapKeys D) :
    ((mapKeys D).filter (fun a => (findSlots a M).isSome)).Perm (mapKeys M) := by
  refine List.perm_of_nodup_nodup_toFinset_eq (hndD.filter _) hndM ?_
  ext a
  simp only [List.mem_toFinset, List.mem_filter]
  constructor
  · intro h
    exact findSlots_isSome_iff.mp h.2
  · intro h
    exact ⟨hsub a h, findSlots_isSome_iff.mpr h⟩

theorem countP_isSome_eq_length {D M : SlotMap}
    (hndD : (mapKeys D).Nodup) (hndM : (mapKeys M).Nodup)
    (hsub : ∀ a ∈ mapKeys M, a ∈ mapKeys D) :
    D.countP (fun p => (findSlots p.1 M).isSome) = M.length := by
  have h1 : D.countP (fun p => (findSlots p.1 M).isSome)
      = (mapKeys D).countP (fun a => (findSlots a M).isSome) := by
    rw [mapKeys, List.countP_map]
    rfl
  rw [h1, List.countP_eq_length_filter,
    (filter_isSome_perm hndD hndM hsub).length_eq]
  simp [mapKeys]

theorem sum_optLens_eq_mapSize {D M : SlotMap}
    (hndD : (mapKeys D).Nodup) (hndM : (mapKeys M).Nodup)
    (hsub : ∀ a ∈ mapKeys M, a ∈ mapKeys D) :
    (D.map (fun p => ((findSlots p.1 M).getD []).length)).sum = mapSize M := by
  have h1 : D.map (fun p => ((findSlots p.1 M).getD []).length)
      = (mapKeys D).map (fun a => ((findSlots a M).getD []).length) := by
    rw [mapKeys, List.map_map]
    rfl
  have h2 : (((mapKeys D).filter (fun a => (findSlots a M).isSome)).map
      (fun a => ((findSlots a M).getD []).length)).sum
      = ((mapKeys D).map (fun a => ((findSlots a M).getD []).length)).sum := by
    apply sum_map_filter_of_zero
    intro a _ hq
    rcases hf : findSlots a M with _ | v
    · simp
    · rw [hf] at hq
      simp at hq
  have h3 : (((mapKeys D).filter (fun a => (findSlots a M).isSome)).map
      (fun a => ((findSlots a M).getD []).length)).sum
      = ((mapKeys M).map (fun a => ((findSlots a M).getD []).length)).sum :=
    ((filter_isSome_perm hndD hndM hsub).map _).sum_eq
  have h4 : (mapKeys M).map (fun a => ((findSlots a M).getD []).length)
      = M.map (fun p => p.2.length) := by
    rw [mapKeys, List.map_map]
    apply List.map_congr_left
    intro p hp
    show ((findSlots p.1 M).getD []).length = p.2.length
    rw [findSlots_of_mem_of_nodup hndM hp]
    rfl
  rw [h1, ← h2, h3, h4]
  rfl

/-! ## Invariants of the optimal-map fold -/

theorem optfold_keys_mem {b : Nat} {l : AccessList} {m : SlotMap} :
    b ∈ mapKeys (l.foldl (fun m i => mapInsert i.address (slotSetOf i.storage_keys) m) m)
      ↔ b ∈ mapKeys m ∨ b ∈ addrsOf l := by
  induction l generalizing m with
  | nil => simp [addrsOf]
  | cons i t ih =>
      rw [List.foldl_cons, ih]
      have : (b ∈ addrsOf (i :: t)) ↔ (b = i.address ∨ b ∈ addrsOf t) := by
        show b ∈ i.address :: addrsOf t ↔ _
        exact List.mem_cons
      rw [this, show (b ∈ mapKeys (mapInsert i.address (slotSetOf i.storage_keys) m))
        = (b = i.address ∨ b ∈ mapKeys m) from propext mem_mapKeys_mapInsert]
      tauto

theorem optfold_sorted {l : AccessList} {m : SlotMap}
    (hk : (mapKeys m).Pairwise (· < ·))
    (hv : ∀ p ∈ m, p.2.Pairwise (· < ·)) :
    (mapKeys (l.foldl (fun m i => mapInsert i.address (slotSetOf i.storage_keys) m) m)).Pairwise (· < ·)
      ∧ ∀ p ∈ (l.foldl (fun m i => mapInsert i.address (slotSetOf i.storage_keys) m) m),
          p.2.Pairwise (· < ·) := by
  induction l generalizing m with
  | nil => exact ⟨hk, hv⟩
  | cons i t ih =>
      rw [List.foldl_cons]
      exact ih (pairwise_mapKeys_mapInsert hk)
        (values_mapInsert hv (pairwise_slotSetOf _))

theorem optfold_length {l : AccessList} {m : SlotMap}
    (hfresh : ∀ i ∈ l, i.address ∉ mapKeys m)
    (hnd : (addrsOf l).Nodup) :
    (l.foldl (fun m i => mapInsert i.address (slotSetOf i.storage_keys) m) m).length
      = m.length + l.length := by
  induction l generalizing m with
  | nil => simp
  | cons i t ih =>
      rw [List.foldl_cons]
      have hndt : (addrsOf t).Nodup := (List.nodup_cons.mp hnd).2
      have hit : i.address ∉ addrsOf t := (List.nodup_cons.mp hnd).1
      have hfresh2 : ∀ j ∈ t, j.address ∉ mapKeys (mapInsert i.address (slotSetOf i.storage_keys) m) := by
        intro j hj hmem
        rcases mem_mapKeys_mapInsert.mp hmem with hje | hjm
        · exact hit (hje ▸ List.mem_map_of_mem _ hj)
        · exact hfresh j (List.mem_cons_of_mem _ hj) hjm
      rw [ih hfresh2 hndt,
        length_mapInsert_of_not_mem (hfresh i (List.mem_cons_self _ _))]
      simp
      omega

theorem optfold_size {l : AccessList} {m : SlotMap}
    (hk : (mapKeys m).Pairwise (· < ·))
    (hfresh : ∀ i ∈ l, i.address ∉ mapKeys m)
    (hnd : (addrsOf l).Nodup)
    (hslots : ∀ i ∈ l, i.storage_keys.Nodup) :
    mapSize (l.foldl (fun m i => mapInsert i.address (slotSetOf i.storage_keys) m) m)
      = mapSize m + totalSlots l := by
  induction l generalizing m with
  | nil => simp [totalSlots]
  | cons i t ih =>
      rw [List.foldl_cons]
      have hndt : (addrsOf t).Nodup := (List.nodup_cons.mp hnd).2
      have hit : i.address ∉ addrsOf t := (List.nodup_cons.mp hnd).1
      have hfresh2 : ∀ j ∈ t, j.address ∉ mapKeys (mapInsert i.address (slotSetOf i.storage_keys) m) := by
        intro j hj hmem
        rcases mem_mapKeys_mapInsert.mp hmem with hje | hjm
        · exact hit (hje ▸ List.mem_map_of_mem _ hj)
        · exact hfresh j (List.mem_cons_of_mem _ hj) hjm
      rw [ih (pairwise_mapKeys_mapInsert hk) hfresh2 hndt
        (fun j hj => hslots j (List.mem_cons_of_mem _ hj))]
      rw [mapSize_mapInsert_of_not_mem hk (hfresh i (List.mem_cons_self _ _))]
      rw [length_slotSetOf_of_nodup (hslots i (List.mem_cons_self _ _))]
      have : totalSlots (i :: t) = i.storage_keys.length + totalSlots t := by
        simp [totalSlots]
      omega

theorem optimalMap_keys_mem {b : Nat} {list : AccessList} :
    b ∈ mapKeys (optimalMapOf list) ↔ b ∈ addrsOf list := by
  rw [optimalMapOf, optfold_keys_mem]
  simp [mapKeys]

theorem optimalMap_sorted (list : AccessList) :
    (mapKeys (optimalMapOf list)).Pairwise (· < ·)
      ∧ ∀ p ∈ optimalMapOf list, p.2.Pairwise (· < ·) :=
  optfold_sorted (by simp [mapKeys]) (by simp)

theorem optimalMap_length {list : AccessList} (hnd : (addrsOf list).Nodup) :
    (optimalMapOf list).length = list.length := by
  rw [optimalMapOf, optfold_length (by simp [mapKeys]) hnd]
  simp

theorem optimalMap_size {list : AccessList} (hnd : (addrsOf list).Nodup)
    (hslots : ∀ i ∈ list, i.storage_keys.Nodup) :
    mapSize (optimalMapOf list) = totalSlots list := by
  rw [optimalMapOf, optfold_size (by simp [mapKeys]) (by simp [mapKeys]) hnd hslots]
  simp [mapSize]

/-! ## The phase-3 accounting lemma -/

theorem phase3_sum {f t c : Nat} {M : SlotMap} (D : SlotMap)
    (hOnone : ∀ p ∈ D, (p.1 = f ∨ p.1 = t ∨ p.1 = c ∨ p.1 ∈ precompile_addresses)
      → findSlots p.1 M = none)
    (hsub : ∀ p ∈ D, ∀ O, findSlots p.1 M = some O → ∀ x ∈ O, x ∈ p.2)
    (hndD : ∀ p ∈ D, p.2.Nodup)
    (hndM : ∀ q ∈ M, q.2.Nodup) :
    (D.map (fun p => upfrontWasteSum (entriesForDeclared f t c M p.1 p.2))).sum
      + ACCESS_LIST_ADDRESS_COST * D.countP (fun p => (findSlots p.1 M).isSome)
      + ACCESS_LIST_STORAGE_KEY_COST
          * (D.map (fun p => ((findSlots p.1 M).getD []).length)).sum
    = (D.map (fun p =>
        ACCESS_LIST_ADDRESS_COST + ACCESS_LIST_STORAGE_KEY_COST * p.2.length)).sum := by
  induction D with
  | nil => simp
  | cons p T ih =>
      have hT := ih (fun q hq => hOnone q (List.mem_cons_of_mem _ hq))
        (fun q hq => hsub q (List.mem_cons_of_mem _ hq))
        (fun q hq => hndD q (List.mem_cons_of_mem _ hq))
      simp only [List.map_cons, List.sum_cons, List.countP_cons]
      by_cases hw : p.1 = f ∨ p.1 = t ∨ p.1 = c ∨ p.1 ∈ precompile_addresses
      · have hnone := hOnone p (List.mem_cons_self _ _) hw
        rw [upfront_entriesForDeclared_warm hw, hnone]
        simp [ACCESS_LIST_ADDRESS_COST, ACCESS_LIST_STORAGE_KEY_COST] at hT ⊢
        omega
      · rcases hfind : findSlots p.1 M with _ | O
        · rw [upfront_entriesForDeclared_absent hw hfind]
          simp [ACCESS_LIST_ADDRESS_COST, ACCESS_LIST_STORAGE_KEY_COST] at hT ⊢
          omega
        · rw [upfront_entriesForDeclared_opt hw hfind]
          have hcount : (p.2.filter (fun x => decide (x ∉ O))).length + O.length
              = p.2.length :=
            length_filter_not_mem_add (hndD p (List.mem_cons_self _ _))
              (hndM (p.1, O) (mem_of_findSlots_eq_some hfind))
              (hsub p (List.mem_cons_self _ _) O hfind)
          simp [ACCESS_LIST_ADDRESS_COST, ACCESS_LIST_STORAGE_KEY_COST] at hT hcount ⊢
          omega

/-! ## Invariants of the optimizer fold -/

theorem optStep_removed {warm created : List Nat} {st : List Nat × SlotMap}
    {item : AccessListItem} (h : ¬ keptAddr warm created item.address) :
    (optStep warm created st item).2 = st.2 := by
  unfold optStep keptAddr at *
  by_cases h1 : item.address ∈ warm
  · rw [if_pos h1]
  · by_cases h2 : item.address ∈ precompile_addresses
    · rw [if_neg h1, if_pos h2]
    · by_cases h3 : item.address ∈ created
      · rw [if_neg h1, if_neg h2, if_pos h3]
      · exact absurd ⟨h1, h2, h3⟩ h

theorem optStep_kept {warm created : List Nat} {st : List Nat × SlotMap}
    {item : AccessListItem} (h : keptAddr warm created item.address) :
    optStep warm created st item
      = if slotSetOf item.storage_keys ≠ [] ∨ findSlots item.address st.2 = none
        then (st.1, mapInsert item.address
          (insertAllSlots ((findSlots item.address st.2).getD [])
            (slotSetOf item.storage_keys)) st.2)
        else st := by
  unfold optStep
  rcases h with ⟨h1, h2, h3⟩
  rw [if_neg h1, if_neg h2, if_neg h3]

theorem slotSetOf_eq_nil_iff {ks : List Nat} : slotSetOf ks = [] ↔ ks = [] := by
  constructor
  · intro h
    rcases ks with _ | ⟨k, kt⟩
    · rfl
    · exfalso
      have : k ∈ slotSetOf (k :: kt) := mem_slotSetOf.mpr (List.mem_cons_self _ _)
      rw [h] at this
      cases this
  · intro h
    rw [h]
    rfl

theorem optStep_kept_snd_mem {warm created : List Nat} {st : List Nat × SlotMap}
    {item : AccessListItem} {b k : Nat} (h : keptAddr warm created item.address) :
    (k ∈ (findSlots b (optStep warm created st item).2).getD []
      ↔ k ∈ (findSlots b st.2).getD []
        ∨ (item.address = b ∧ k ∈ item.storage_keys)) := by
  rw [optStep_kept h]
  by_cases hg : slotSetOf item.storage_keys ≠ [] ∨ findSlots item.address st.2 = none
  · rw [if_pos hg]
    by_cases hb : item.address = b
    · subst hb
      rw [findSlots_mapInsert_self]
      simp only [Option.getD_some]
      rw [mem_insertAllSlots, mem_slotSetOf]
      tauto
    · rw [findSlots_mapInsert_ne _ _ (fun hc => hb hc.symm)]
      tauto
  · rw [if_neg hg]
    push_neg at hg
    have hks : item.storage_keys = [] := slotSetOf_eq_nil_iff.mp hg.1
    simp [hks]

theorem optStep_keys_mem {warm created : List Nat} {st : List Nat × SlotMap}
    {item : AccessListItem} {b : Nat} :
    b ∈ mapKeys (optStep warm created st item).2
      ↔ b ∈ mapKeys st.2
        ∨ (keptAddr warm created item.address ∧ item.address = b) := by
  by_cases h : keptAddr warm created item.address
  · rw [optStep_kept h]
    by_cases hg : slotSetOf item.storage_keys ≠ [] ∨ findSlots item.address st.2 = none
    · rw [if_pos hg]
      rw [show (b ∈ mapKeys (mapInsert item.address
        (insertAllSlots ((findSlots item.address st.2).getD [])
          (slotSetOf item.storage_keys)) st.2))
        = (b = item.address ∨ b ∈ mapKeys st.2) from propext mem_mapKeys_mapInsert]
      constructor
      · rintro (rfl | hm)
        · exact Or.inr ⟨h, rfl⟩
        · exact Or.inl hm
      · rintro (hm | ⟨_, rfl⟩)
        · exact Or.inr hm
        · exact Or.inl rfl
    · rw [if_neg hg]
      push_neg at hg
      constructor
      · exact Or.inl
      · rintro (hm | ⟨_, rfl⟩)
        · exact hm
        · exact findSlots_isSome_iff.mp (by
            rcases hf : findSlots item.address st.2 with _ | v
            · exact absurd hf hg.2
            · simp)
  · rw [optStep_removed h]
    constructor
    · exact Or.inl
    · rintro (hm | ⟨hk, _⟩)
      · exact hm
      · exact absurd hk h

theorem optStep_sorted {warm created : List Nat} {st : List Nat × SlotMap}
    {item : AccessListItem}
    (hk : (mapKeys st.2).Pairwise (· < ·))
    (hv : ∀ p ∈ st.2, p.2.Pairwise (· < ·)) :
    (mapKeys (optStep warm created st item).2).Pairwise (· < ·)
      ∧ ∀ p ∈ (optStep warm created st item).2, p.2.Pairwise (· < ·) := by
  by_cases h : keptAddr warm created item.address
  · rw [optStep_kept h]
    by_cases hg : slotSetOf item.storage_keys ≠ [] ∨ findSlots item.address st.2 = none
    · rw [if_pos hg]
      refine ⟨pairwise_mapKeys_mapInsert hk, values_mapInsert hv ?_⟩
      apply pairwise_insertAllSlots
      rcases hf : findSlots item.address st.2 with _ | v
      · simp
      · simpa using hv (item.address, v) (mem_of_findSlots_eq_some hf)
    · rw [if_neg hg]
      exact ⟨hk, hv⟩
  · rw [optStep_removed h]
    exact ⟨hk, hv⟩

theorem optfold_keys_mem_opt {warm created : List Nat} {l : AccessList}
    {st : List Nat × SlotMap} {b : Nat} :
    b ∈ mapKeys (l.foldl (optStep warm created) st).2
      ↔ b ∈ mapKeys st.2
        ∨ (keptAddr warm created b ∧ ∃ i ∈ l, i.address = b) := by
  induction l generalizing st with
  | nil => simp
  | cons i t ih =>
      rw [List.foldl_cons, ih]
      rw [show (b ∈ mapKeys (optStep warm created st i).2)
        = (b ∈ mapKeys st.2 ∨ (keptAddr warm created i.address ∧ i.address = b))
        from propext optStep_keys_mem]
      constructor
      · rintro ((hm | ⟨hk, rfl⟩) | ⟨hk, j, hj, rfl⟩)
        · exact Or.inl hm
        · exact Or.inr ⟨hk, i, List.mem_cons_self _ _, rfl⟩
        · exact Or.inr ⟨hk, j, List.mem_cons_of_mem _ hj, rfl⟩
      · rintro (hm | ⟨hk, j, hj, rfl⟩)
        · exact Or.inl (Or.inl hm)
        · rcases List.mem_cons.mp hj with rfl | hj2
          · exact Or.inl (Or.inr ⟨hk, rfl⟩)
          · exact Or.inr ⟨hk, j, hj2, rfl⟩

theorem optfold_sorted_opt {warm created : List Nat} {l : AccessList}
    {st : List Nat × SlotMap}
    (hk : (mapKeys st.2).Pairwise (· < ·))
    (hv : ∀ p ∈ st.2, p.2.Pairwise (· < ·)) :
    (mapKeys (l.foldl (optStep warm created) st).2).Pairwise (· < ·)
      ∧ ∀ p ∈ (l.foldl (optStep warm created) st).2, p.2.Pairwise (· < ·) := by
  induction l generalizing st with
  | nil => exact ⟨hk, hv⟩
  | cons i t ih =>
      rw [List.foldl_cons]
      exact ih (optStep_sorted hk hv).1 (optStep_sorted hk hv).2

theorem optfold_value_mem {warm created : List Nat} {l : AccessList}
    {st : List Nat × SlotMap} {b k : Nat} (hb : keptAddr warm created b) :
    k ∈ (findSlots b (l.foldl (optStep warm created) st).2).getD []
      ↔ k ∈ (findSlots b st.2).getD []
        ∨ ∃ i ∈ l, i.address = b ∧ k ∈ i.storage_keys := by
  induction l generalizing st with
  | nil => simp
  | cons i t ih =>
      rw [List.foldl_cons, ih]
      by_cases hkept : keptAddr warm created i.address
      · rw [show (k ∈ (findSlots b (optStep warm created st i).2).getD [])
          = (k ∈ (findSlots b st.2).getD []
            ∨ (i.address = b ∧ k ∈ i.storage_keys))
          from propext (optStep_kept_snd_mem hkept)]
        constructor
        · rintro ((hm | ⟨rfl, hk2⟩) | ⟨j, hj, rfl, hk2⟩)
          · exact Or.inl hm
          · exact Or.inr ⟨i, List.mem_cons_self _ _, rfl, hk2⟩
          · exact Or.inr ⟨j, List.mem_cons_of_mem _ hj, rfl, hk2⟩
        · rintro (hm | ⟨j, hj, rfl, hk2⟩)
          · exact Or.inl (Or.inl hm)
          · rcases List.mem_cons.mp hj with rfl | hj2
            · exact Or.inl (Or.inr ⟨rfl, hk2⟩)
            · exact Or.inr ⟨j, hj2, rfl, hk2⟩
      · rw [optStep_removed hkept]
        constructor
        · rintro (hm | ⟨j, hj, rfl, hk2⟩)
          · exact Or.inl hm
          · exact Or.inr ⟨j, List.mem_cons_of_mem _ hj, rfl, hk2⟩
        · rintro (hm | ⟨j, hj, rfl, hk2⟩)
          · exact Or.inl hm
          · rcases List.mem_cons.mp hj with rfl | hj2
            · exact absurd hb hkept
            · exact Or.inr ⟨j, hj2, rfl, hk2⟩

theorem optfold_canonical {warm created : List Nat} {l : AccessList}
    {st : List Nat × SlotMap}
    (hbelow : ∀ a ∈ mapKeys st.2, ∀ i ∈ l, a < i.address)
    (hsorted : (addrsOf l).Pairwise (· < ·))
    (hslots : ∀ i ∈ l, i.storage_keys.Pairwise (· < ·))
    (hkept : ∀ i ∈ l, keptAddr warm created i.address) :
    l.foldl (optStep warm created) st
      = (st.1, st.2 ++ l.map (fun i => (i.address, i.storage_keys))) := by
  induction l generalizing st with
  | nil => simp
  | cons i t ih =>
      rw [List.foldl_cons]
      have hfind : findSlots i.address st.2 = none := by
        rw [findSlots_eq_none_iff]
        intro hmem
        exact absurd (hbelow i.address hmem i (List.mem_cons_self _ _))
          (lt_irrefl _)
      have hstep : optStep warm created st i
          = (st.1, st.2 ++ [(i.address, i.storage_keys)]) := by
        rw [optStep_kept (hkept i (List.mem_cons_self _ _)), if_pos (Or.inr hfind),
          hfind]
        rw [show (Option.none.getD ([] : List Nat)) = [] from rfl]
        rw [show insertAllSlots [] (slotSetOf i.storage_keys)
            = i.storage_keys by
          show slotSetOf (slotSetOf i.storage_keys) = i.storage_keys
          rw [slotSetOf_eq_self (pairwise_slotSetOf _)]
          exact slotSetOf_eq_self (hslots i (List.mem_cons_self _ _))]
        rw [mapInsert_append_of_gt
          (fun a ha => hbelow a ha i (List.mem_cons_self _ _))]
      rw [hstep]
      rw [@ih (st.1, st.2 ++ [(i.address, i.storage_keys)]) ?_ ?_ ?_ ?_]
      · simp
      · intro a ha j hj
        have hkeys : mapKeys (st.2 ++ [(i.address, i.storage_keys)])
            = mapKeys st.2 ++ [i.address] := by
          simp [mapKeys]
        rw [show (st.1, st.2 ++ [(i.address, i.storage_keys)]).2
            = st.2 ++ [(i.address, i.storage_keys)] from rfl, hkeys] at ha
        rcases List.mem_append.mp ha with h1 | h1
        · exact hbelow a h1 j (List.mem_cons_of_mem _ hj)
        · rcases List.mem_singleton.mp h1 with rfl
          exact (List.pairwise_cons.mp hsorted).1 j.address
            (List.mem_map_of_mem _ hj)
      · exact (List.pairwise_cons.mp hsorted).2
      · exact fun j hj => hslots j (List.mem_cons_of_mem _ hj)
      · exact fun j hj => hkept j (List.mem_cons_of_mem _ hj)

/-! ## Bridge lemmas about `validate` and its pieces -/

theorem validate_entries (declared : AccessList) (optimal : OptimizedAccessList)
    (f t c : Nat) :
    (validate declared optimal f t c).entries
      = (scanDeclared declared).2
        ++ (scanDeclared declared).1.flatMap
            (fun p => entriesForDeclared f t c (optimalMapOf optimal.list) p.1 p.2)
        ++ missingEntries (scanDeclared declared).1 (optimalMapOf optimal.list) := rfl

theorem validate_is_valid_eq (declared : AccessList) (optimal : OptimizedAccessList)
    (f t c : Nat) :
    (validate declared optimal f t c).is_valid
      = (validate declared optimal f t c).entries.isEmpty := rfl

theorem declaredMap_sorted (declared : AccessList) :
    (mapKeys (scanDeclared declared).1).Pairwise (· < ·)
      ∧ ∀ p ∈ (scanDeclared declared).1, p.2.Pairwise (· < ·) :=
  scan_inv (by simp [mapKeys]) (by simp)

theorem declaredMap_keys_mem {b : Nat} {declared : AccessList} :
    b ∈ mapKeys (scanDeclared declared).1 ↔ b ∈ addrsOf declared := by
  rw [scanDeclared, scan_keys_mem]
  simp [mapKeys]

theorem declaredMap_find (declared : AccessList) (b : Nat) :
    findSlots b (scanDeclared declared).1
      = if b ∈ addrsOf declared
        then some (slotSetOf (slotsUnder declared b))
        else none := by
  rw [scanDeclared, scan_find (by simp [mapKeys]) (by simp)]
  rfl

theorem dups_all_duplicate (declared : AccessList) :
    ∀ e ∈ (scanDeclared declared).2,
      ∃ a k, e = .Duplicate a k ACCESS_LIST_STORAGE_KEY_COST := by
  intro e he
  rcases scan_snd_mem e he with h | h
  · cases h
  · exact h

theorem no_list_fold (m : SlotMap) (c : Nat) :
    m.foldl (fun cost p => cost + COLD_ACCOUNT_ACCESS_COST
        + p.2.length * COLD_SLOAD_COST) c
      = c + (m.map (fun p =>
          COLD_ACCOUNT_ACCESS_COST + COLD_SLOAD_COST * p.2.length)).sum := by
  induction m generalizing c with
  | nil => simp
  | cons p t ih =>
      rw [List.foldl_cons, ih]
      simp only [List.map_cons, List.sum_cons]
      ring

theorem compute_no_list_cost_eq (m : SlotMap) :
    compute_no_list_cost m
      = (m.map (fun p =>
          COLD_ACCOUNT_ACCESS_COST + COLD_SLOAD_COST * p.2.length)).sum := by
  rw [compute_no_list_cost, no_list_fold]
  simp

theorem countP_flatMap {α : Type} (p : DiffEntry → Bool) (l : List α)
    (g : α → List DiffEntry) :
    (l.flatMap g).countP p = (l.map (fun a => (g a).countP p)).sum := by
  induction l with
  | nil => simp
  | cons x t ih => simp [List.flatMap_cons, List.countP_append, ih]

theorem sum_map_ite {α : Type} (l : List α) (q : α → Prop) [DecidablePred q] :
    (l.map (fun x => if q x then 1 else 0)).sum = l.countP (fun x => decide (q x)) := by
  induction l with
  | nil => simp
  | cons x t ih =>
      by_cases h : q x
      · simp [List.countP_cons, h, ih]
        omega
      · simp [List.countP_cons, h, ih]

theorem countP_eq_one_of_nodup_mem {L : List Nat} {a : Nat}
    (hnd : L.Nodup) (ha : a ∈ L) :
    L.countP (fun b => decide (b = a)) = 1 := by
  induction L with
  | nil => cases ha
  | cons y T ih =>
      rcases List.nodup_cons.mp hnd with ⟨hy, hT⟩
      by_cases hya : y = a
      · subst hya
        have : T.countP (fun b => decide (b = y)) = 0 := by
          rw [List.countP_eq_zero]
          intro b hb
          simp only [decide_eq_true_eq]
          intro hba
          exact hy (hba ▸ hb)
        simp [List.countP_cons, this]
      · have haT : a ∈ T := by
          rcases List.mem_cons.mp ha with h | h
          · exact absurd h.symm hya
          · exact h
        simp [List.countP_cons, hya, ih hT haT]

/-! ## Bridge lemmas about `optimize` -/

theorem optimize_list_eq (raw : RawTraceResult) (tx_from tx_to coinbase : Nat) :
    (optimize raw tx_from tx_to coinbase).list
      = ((raw.access_list.foldl
          (optStep (warmByDefault tx_from tx_to coinbase) raw.created_contracts)
          ([], [])).2).map (fun p => { address := p.1, storage_keys := p.2 }) := rfl

theorem optimize_removed_eq (raw : RawTraceResult) (tx_from tx_to coinbase : Nat) :
    (optimize raw tx_from tx_to coinbase).removed_addresses
      = (raw.access_list.foldl
          (optStep (warmByDefault tx_from tx_to coinbase) raw.created_contracts)
          ([], [])).1 := rfl

theorem addrsOf_map_toItem (M : SlotMap) :
    addrsOf (M.map (fun p => ({ address := p.1, storage_keys := p.2 } : AccessListItem)))
      = mapKeys M := by
  simp [addrsOf, mapKeys]

theorem optimize_kept (raw : RawTraceResult) (tx_from tx_to coinbase : Nat) :
    ∀ i ∈ (optimize raw tx_from tx_to coinbase).list,
      keptAddr (warmByDefault tx_from tx_to coinbase) raw.created_contracts i.address := by
  intro i hi
  rw [optimize_list_eq] at hi
  rcases List.mem_map.mp hi with ⟨p, hp, rfl⟩
  have hkey : p.1 ∈ mapKeys (raw.access_list.foldl
      (optStep (warmByDefault tx_from tx_to coinbase) raw.created_contracts)
      ([], [])).2 := List.mem_map_of_mem Prod.fst hp
  rcases optfold_keys_mem_opt.mp hkey with h | h
  · simp [mapKeys] at h
  · exact h.1

/-! ## Claim theorems -/

/-- Claim C7. For every access list, `access_list_gas_cost` returns 2400 times
the number of unique addresses plus 1900 times the total number of
storage-key entries counting duplicates: an address repeated across items is
charged once, while a duplicated storage slot is charged per occurrence. -/
theorem access_list_gas_cost_formula (list : AccessList) :
    access_list_gas_cost list
      = 2400 * ((list.map (fun i => i.address)).dedup).length
        + 1900 * (list.map (fun i => i.storage_keys.length)).sum := by
  rw [access_list_gas_cost_closed_form]
  simp [ACCESS_LIST_ADDRESS_COST, ACCESS_LIST_STORAGE_KEY_COST, addrsOf, totalSlots]

/-- Claim C6. Gas summary equations of every validation report:
`declared_list_cost` is `access_list_gas_cost` of the raw declared input
(duplicates included), `optimal_list_cost` is `access_list_gas_cost` of the
optimal list, `waste_per_tx` is their signed difference, `no_list_cost` is
the sum over the optimal map of `2600 + 2100` per unique slot, and
`savings_vs_no_list = no_list_cost - optimal_list_cost`. -/
theorem gas_summary_equations (declared : AccessList) (optimal : OptimizedAccessList)
    (tx_from tx_to coinbase : Nat) :
    (validate declared optimal tx_from tx_to coinbase).gas_summary.declared_list_cost
        = access_list_gas_cost declared
    ∧ (validate declared optimal tx_from tx_to coinbase).gas_summary.optimal_list_cost
        = access_list_gas_cost optimal.list
    ∧ (validate declared optimal tx_from tx_to coinbase).gas_summary.no_list_cost
        = ((optimalMapOf optimal.list).map (fun p => 2600 + 2100 * p.2.length)).sum
    ∧ (validate declared optimal tx_from tx_to coinbase).gas_summary.waste_per_tx
        = (access_list_gas_cost declared : Int) - (access_list_gas_cost optimal.list : Int)
    ∧ (validate declared optimal tx_from tx_to coinbase).gas_summary.savings_vs_no_list
        = ((validate declared optimal tx_from tx_to coinbase).gas_summary.no_list_cost : Int)
          - (access_list_gas_cost optimal.list : Int) := by
  refine ⟨rfl, rfl, ?_, rfl, rfl⟩
  show compute_no_list_cost (optimalMapOf optimal.list) = _
  rw [compute_no_list_cost_eq]
  simp [COLD_ACCOUNT_ACCESS_COST, COLD_SLOAD_COST]

/-- Claim C10. The output of `optimize` does not depend on the `gas_used` and
`success` fields of the raw trace: raw traces agreeing on `access_list` and
`created_contracts` optimize identically. -/
theorem optimize_ignores_gas_and_success (r1 r2 : RawTraceResult)
    (tx_from tx_to coinbase : Nat)
    (hal : r1.access_list = r2.access_list)
    (hcc : r1.created_contracts = r2.created_contracts) :
    optimize r1 tx_from tx_to coinbase = optimize r2 tx_from tx_to coinbase := by
  rcases r1 with ⟨al1, cc1, g1, s1⟩
  rcases r2 with ⟨al2, cc2, g2, s2⟩
  simp only at hal hcc
  subst hal
  subst hcc
  rfl

/-- Witness for C10 at a concrete input: a reverted, cheaper trace with the
same access list and created contracts optimizes identically. -/
theorem optimize_ignores_gas_and_success_witness :
    optimize { access_list := [{ address := 50, storage_keys := [1] }],
               created_contracts := [], gas_used := 21000, success := true } 1 2 3
      = optimize { access_list := [{ address := 50, storage_keys := [1] }],
                   created_contracts := [], gas_used := 99, success := false } 1 2 3 :=
  optimize_ignores_gas_and_success _ _ 1 2 3 rfl rfl

/-- Claim C2, counterexample. The unconditional warm-strip claim fails when
`tx_to` is the zero address: the zero address from the raw trace survives in
the optimized list even though it equals `tx_to`. -/
theorem optimize_strips_warm_counterexample :
    ¬ (∀ i ∈ (optimize (⟨[⟨0, []⟩], [], 0, true⟩ : RawTraceResult) 5 0 7).list,
        i.address ≠ 0) := by
  decide

/-- Claim C2, amended. Warm-strip completeness, except for the zero address:
every address in the optimized list that equals `tx_from`, `tx_to` or
`coinbase` must be the zero address (which is deliberately exempt from the
warm-by-default set), and no listed address is a precompile or a created
contract. -/
theorem optimize_strips_warm (raw : RawTraceResult) (tx_from tx_to coinbase : Nat) :
    ∀ i ∈ (optimize raw tx_from tx_to coinbase).list,
      ((i.address = tx_from ∨ i.address = tx_to ∨ i.address = coinbase)
        → i.address = 0)
      ∧ i.address ∉ precompile_addresses
      ∧ i.address ∉ raw.created_contracts := by
  intro i hi
  obtain ⟨hw, hpre, hcr⟩ := optimize_kept raw tx_from tx_to coinbase i hi
  refine ⟨?_, hpre, hcr⟩
  intro hor
  by_contra h0
  apply hw
  unfold warmByDefault
  rw [List.mem_filter]
  refine ⟨?_, by simpa using h0⟩
  rcases hor with h | h | h <;> simp [h]

/-- Witness for C2 (amended) at a concrete input: address `50` survives
optimization and is neither warm, a precompile, nor created. -/
theorem optimize_strips_warm_witness :
    (((({ address := 50, storage_keys := [] } : AccessListItem).address = 1
        ∨ ({ address := 50, storage_keys := [] } : AccessListItem).address = 2
        ∨ ({ address := 50, storage_keys := [] } : AccessListItem).address = 3)
      → ({ address := 50, storage_keys := [] } : AccessListItem).address = 0)
    ∧ ({ address := 50, storage_keys := [] } : AccessListItem).address ∉ precompile_addresses
    ∧ ({ address := 50, storage_keys := [] } : AccessListItem).address
        ∉ ({ access_list := [{ address := 50, storage_keys := [] }],
             created_contracts := [], gas_used := 0, success := true }
            : RawTraceResult).created_contracts) :=
  optimize_strips_warm
    { access_list := [{ address := 50, storage_keys := [] }],
      created_contracts := [], gas_used := 0, success := true } 1 2 3
    { address := 50, storage_keys := [] } (by decide)

/-- Claim C8. Canonical form of the optimizer output: addresses are pairwise
distinct and ascending, each storage-key list is pairwise distinct and
ascending, and raw items sharing one address are merged by uniting their
slot sets. -/
theorem optimize_canonical_form (raw : RawTraceResult) (tx_from tx_to coinbase : Nat) :
    (addrsOf (optimize raw tx_from tx_to coinbase).list).Pairwise (· < ·)
    ∧ (∀ i ∈ (optimize raw tx_from tx_to coinbase).list,
        i.storage_keys.Pairwise (· < ·))
    ∧ (∀ i ∈ (optimize raw tx_from tx_to coinbase).list, ∀ s : Nat,
        s ∈ i.storage_keys
          ↔ ∃ r ∈ raw.access_list, r.address = i.address ∧ s ∈ r.storage_keys) := by
  have hsort := @optfold_sorted_opt (warmByDefault tx_from tx_to coinbase)
    raw.created_contracts raw.access_list ([], [])
    (by simp [mapKeys]) (by simp)
  refine ⟨?_, ?_, ?_⟩
  · rw [optimize_list_eq, addrsOf_map_toItem]
    exact hsort.1
  · intro i hi
    rw [optimize_list_eq] at hi
    rcases List.mem_map.mp hi with ⟨p, hp, rfl⟩
    exact hsort.2 p hp
  · intro i hi s
    have hkept := optimize_kept raw tx_from tx_to coinbase i hi
    rw [optimize_list_eq] at hi
    rcases List.mem_map.mp hi with ⟨p, hp, rfl⟩
    have hnd : (mapKeys (raw.access_list.foldl
        (optStep (warmByDefault tx_from tx_to coinbase) raw.created_contracts)
        ([], [])).2).Nodup := nodup_of_pairwise_lt hsort.1
    have hfind := findSlots_of_mem_of_nodup hnd hp
    have hmem := @optfold_value_mem (warmByDefault tx_from tx_to coinbase)
      raw.created_contracts raw.access_list ([], []) p.1 s hkept
    rw [hfind] at hmem
    simpa [findSlots] using hmem

/-- Witness for C8 at a concrete input: merging two raw items of address 50. -/
theorem optimize_canonical_form_witness :
    (7 : Nat) ∈ ({ address := 50, storage_keys := [5, 7] } : AccessListItem).storage_keys
      ↔ ∃ r ∈ ({ access_list := [{ address := 50, storage_keys := [7] },
                  { address := 50, storage_keys := [5] }],
                 created_contracts := [], gas_used := 0, success := true }
              : RawTraceResult).access_list,
          r.address = ({ address := 50, storage_keys := [5, 7] } : AccessListItem).address
            ∧ (7 : Nat) ∈ r.storage_keys :=
  (optimize_canonical_form
    { access_list := [{ address := 50, storage_keys := [7] },
        { address := 50, storage_keys := [5] }],
      created_contracts := [], gas_used := 0, success := true } 1 2 3).2.2
    { address := 50, storage_keys := [5, 7] } (by decide) 7

/-- Claim C9, counterexample. `optimize` is not idempotent as a whole value:
re-optimizing the optimized list yields an empty `removed_addresses` even
when the first pass removed something, so the two results differ. -/
theorem optimize_idempotent_counterexample :
    optimize
        (⟨(optimize (⟨[⟨1, []⟩], [], 21000, true⟩ : RawTraceResult) 1 2 3).list,
          [], 21000, true⟩ : RawTraceResult) 1 2 3
      ≠ optimize (⟨[⟨1, []⟩], [], 21000, true⟩ : RawTraceResult) 1 2 3 := by
  decide

/-- Claim C9, amended. Idempotence on the list component: re-running
`optimize` on a raw trace whose access list is an optimized list (same
created contracts, same transaction context) returns the same list and
removes nothing. -/
theorem optimize_idempotent_list (raw : RawTraceResult)
    (tx_from tx_to coinbase g : Nat) (s : Bool) :
    optimize { access_list := (optimize raw tx_from tx_to coinbase).list,
               created_contracts := raw.created_contracts,
               gas_used := g, success := s } tx_from tx_to coinbase
      = { list := (optimize raw tx_from tx_to coinbase).list,
          removed_addresses := [] } := by
  have hsort := @optfold_sorted_opt (warmByDefault tx_from tx_to coinbase)
    raw.created_contracts raw.access_list ([], [])
    (by simp [mapKeys]) (by simp)
  have hcanon := @optfold_canonical (warmByDefault tx_from tx_to coinbase)
    raw.created_contracts ((optimize raw tx_from tx_to coinbase).list) ([], [])
    (by simp [mapKeys])
    (by rw [optimize_list_eq, addrsOf_map_toItem]; exact hsort.1)
    (by
      intro i hi
      rw [optimize_list_eq] at hi
      rcases List.mem_map.mp hi with ⟨p, hp, rfl⟩
      exact hsort.2 p hp)
    (optimize_kept raw tx_from tx_to coinbase)
  have hpairs : ((optimize raw tx_from tx_to coinbase).list.map
      (fun i => (i.address, i.storage_keys)))
      = (raw.access_list.foldl
          (optStep (warmByDefault tx_from tx_to coinbase) raw.created_contracts)
          ([], [])).2 := by
    rw [optimize_list_eq, List.map_map]
    exact List.map_id _
  show OptimizedAccessList.mk _ _ = _
  rw [show ((⟨(optimize raw tx_from tx_to coinbase).list, raw.created_contracts,
      g, s⟩ : RawTraceResult)).access_list.foldl
      (optStep (warmByDefault tx_from tx_to coinbase) raw.created_contracts)
      ([], [])
    = ((optimize raw tx_from tx_to coinbase).list).foldl
      (optStep (warmByDefault tx_from tx_to coinbase) raw.created_contracts)
      ([], []) from rfl, hcanon]
  rw [show (([] : List Nat),
      ([] : SlotMap) ++ (optimize raw tx_from tx_to coinbase).list.map
        (fun i => (i.address, i.storage_keys))).2
    = (optimize raw tx_from tx_to coinbase).list.map
        (fun i => (i.address, i.storage_keys)) from by simp]
  rw [hpairs]
  rfl

/-- Claim C5. Missing classification: every optimal-map address absent from
the declared list yields a `Missing` entry carrying that address, its unique
optimal slots and `gas_waste = 2000` per slot; no `Missing` entry is ever
emitted for an address that appears in the declared list. -/
theorem missing_classification (declared : AccessList) (optimal : OptimizedAccessList)
    (tx_from tx_to coinbase : Nat) :
    (∀ a os, findSlots a (optimalMapOf optimal.list) = some os
        → a ∉ addrsOf declared
        → DiffEntry.Missing a os (2000 * os.length)
            ∈ (validate declared optimal tx_from tx_to coinbase).entries)
    ∧ ∀ e ∈ (validate declared optimal tx_from tx_to coinbase).entries,
        e.isMissing = true → e.address ∉ addrsOf declared := by
  constructor
  · intro a os hfind hnd
    have hfindD : findSlots a (scanDeclared declared).1 = none := by
      rw [declaredMap_find, if_neg hnd]
    have hmem := missingEntries_mem (D := (scanDeclared declared).1)
      (M := optimalMapOf optimal.list) (p := (a, os))
      (mem_of_findSlots_eq_some hfind) hfindD
    rw [validate_entries]
    have hw : DiffEntry.Missing a os (2000 * os.length)
        = DiffEntry.Missing (a, os).1 (a, os).2
          ((a, os).2.length * (COLD_SLOAD_COST - WARM_STORAGE_READ_COST)) := by
      simp [COLD_SLOAD_COST, WARM_STORAGE_READ_COST]
      omega
    rw [hw]
    exact List.mem_append.mpr (Or.inr hmem)
  · intro e he hm
    rw [validate_entries] at he
    rcases List.mem_append.mp he with h1 | h1
    · rcases List.mem_append.mp h1 with h2 | h2
      · rcases dups_all_duplicate declared e h2 with ⟨b, k, rfl⟩
        simp [DiffEntry.isMissing] at hm
      · rcases List.mem_flatMap.mp h2 with ⟨p, hp, hep⟩
        have hkind := (entriesForDeclared_address_kind e hep).2.1
        rw [hm] at hkind
        cases hkind
    · rcases missingEntries_shape e h1 with ⟨p, hp, rfl, hfnone⟩
      show (DiffEntry.Missing p.1 p.2 _).address ∉ addrsOf declared
      simp only [DiffEntry.address]
      intro hmem
      rw [declaredMap_find, if_pos hmem] at hfnone
      cases hfnone

/-- Witness for C5: address 20 is optimal but undeclared, so a `Missing`
entry with waste 2000 per slot appears. -/
theorem missing_classification_witness :
    DiffEntry.Missing 20 [1] (2000 * ([1] : List Nat).length)
      ∈ (validate [] (⟨[⟨20, [1]⟩], []⟩ : OptimizedAccessList) 200 201 202).entries :=
  (missing_classification [] ⟨[⟨20, [1]⟩], []⟩ 200 201 202).1 20 [1]
    (by decide) (by decide)

/-- Claim C3, counterexample. A declared list in which the same address
appears in two items need not produce any diff entry: with no storage slots
involved, the validator merges the two items silently and reports a valid
list. -/
theorem duplicate_entry_counterexample :
    (validate [⟨20, []⟩, ⟨20, []⟩] (⟨[⟨20, []⟩], []⟩ : OptimizedAccessList)
        200 201 202).entries = []
    ∧ (validate [⟨20, []⟩, ⟨20, []⟩] (⟨[⟨20, []⟩], []⟩ : OptimizedAccessList)
        200 201 202).is_valid = true := by
  decide

/-- Claim C3, amended. Whenever the same (address, storage slot) pair occurs
twice in the declared list — in one item or across items — the report
contains at least one diff entry (in fact a `Duplicate`) and `is_valid` is
false, for every optimal list and transaction context.  A repeated address
alone, without a repeated slot, is not flagged. -/
theorem duplicate_detection (declared : AccessList) (optimal : OptimizedAccessList)
    (tx_from tx_to coinbase : Nat)
    (hdup : ¬ (pairsOf declared).Nodup) :
    (∃ e ∈ (validate declared optimal tx_from tx_to coinbase).entries,
        e.isDuplicate = true)
    ∧ (validate declared optimal tx_from tx_to coinbase).is_valid = false := by
  have hne : (scanDeclared declared).2 ≠ [] := by
    intro h
    apply hdup
    have h0 : (declared.foldl scanStep (([] : SlotMap), ([] : List DiffEntry))).2.length
        = (([] : SlotMap), ([] : List DiffEntry)).2.length := by
      rw [show declared.foldl scanStep (([] : SlotMap), ([] : List DiffEntry))
        = scanDeclared declared from rfl, h]
    exact (scan_no_new_dups h0).1
  obtain ⟨e, he⟩ := List.exists_mem_of_ne_nil _ hne
  obtain ⟨b, k, rfl⟩ := dups_all_duplicate declared e he
  constructor
  · refine ⟨DiffEntry.Duplicate b k ACCESS_LIST_STORAGE_KEY_COST, ?_, ?_⟩
    · rw [validate_entries]
      exact List.mem_append.mpr (Or.inl (List.mem_append.mpr (Or.inl he)))
    · simp [DiffEntry.isDuplicate]
  · rw [validate_is_valid_eq, validate_entries]
    exact List.isEmpty_eq_false.mpr
      (List.append_ne_nil_of_left_ne_nil
        (List.append_ne_nil_of_left_ne_nil hne _) _)

/-- Witness for C3 (amended): slot 7 declared twice under address 20. -/
theorem duplicate_detection_witness :
    (∃ e ∈ (validate [⟨20, [7, 7]⟩] (⟨[⟨20, [7]⟩], []⟩ : OptimizedAccessList)
        1 2 3).entries, e.isDuplicate = true)
    ∧ (validate [⟨20, [7, 7]⟩] (⟨[⟨20, [7]⟩], []⟩ : OptimizedAccessList)
        1 2 3).is_valid = false :=
  duplicate_detection _ _ 1 2 3 (by decide)

/-- Claim C4. Redundant classification: a declared address equal to
`tx_from`, `tx_to` or `coinbase`, or a precompile, yields exactly one
`Redundant` entry, carrying `gas_waste = 2400 + 1900` per distinct declared
slot, and no `Stale`, `Incomplete` or `Missing` entry is emitted for that
address. -/
theorem redundant_classification (declared : AccessList) (optimal : OptimizedAccessList)
    (tx_from tx_to coinbase a : Nat)
    (hwarm : a = tx_from ∨ a = tx_to ∨ a = coinbase ∨ a ∈ precompile_addresses)
    (hdecl : a ∈ addrsOf declared) :
    ((validate declared optimal tx_from tx_to coinbase).entries.countP
        (fun e => e.isRedundant && decide (e.address = a)) = 1)
    ∧ DiffEntry.Redundant a (2400 + 1900 * (slotsUnder declared a).dedup.length)
        ∈ (validate declared optimal tx_from tx_to coinbase).entries
    ∧ ∀ e ∈ (validate declared optimal tx_from tx_to coinbase).entries,
        (e.isStale || e.isIncomplete || e.isMissing) = true → e.address ≠ a := by
  have hkeys : a ∈ mapKeys (scanDeclared declared).1 := declaredMap_keys_mem.mpr hdecl
  have hfindD : findSlots a (scanDeclared declared).1
      = some (slotSetOf (slotsUnder declared a)) := by
    rw [declaredMap_find, if_pos hdecl]
  have hmemD : (a, slotSetOf (slotsUnder declared a)) ∈ (scanDeclared declared).1 :=
    mem_of_findSlots_eq_some hfindD
  have hknd : (mapKeys (scanDeclared declared).1).Nodup :=
    nodup_of_pairwise_lt (declaredMap_sorted declared).1
  refine ⟨?_, ?_, ?_⟩
  · rw [validate_entries, List.countP_append, List.countP_append]
    have h1 : (scanDeclared declared).2.countP
        (fun e => e.isRedundant && decide (e.address = a)) = 0 := by
      rw [List.countP_eq_zero]
      intro e he
      rcases dups_all_duplicate declared e he with ⟨b, k, rfl⟩
      simp [DiffEntry.isRedundant]
    have h3 : (missingEntries (scanDeclared declared).1
        (optimalMapOf optimal.list)).countP
        (fun e => e.isRedundant && decide (e.address = a)) = 0 := by
      rw [List.countP_eq_zero]
      intro e he
      rcases missingEntries_shape e he with ⟨p, _, rfl, _⟩
      simp [DiffEntry.isRedundant]
    have h2 : ((scanDeclared declared).1.flatMap
        (fun p => entriesForDeclared tx_from tx_to coinbase
          (optimalMapOf optimal.list) p.1 p.2)).countP
        (fun e => e.isRedundant && decide (e.address = a)) = 1 := by
      rw [countP_flatMap]
      have hcong : (scanDeclared declared).1.map
          (fun p => (entriesForDeclared tx_from tx_to coinbase
            (optimalMapOf optimal.list) p.1 p.2).countP
            (fun e => e.isRedundant && decide (e.address = a)))
          = (scanDeclared declared).1.map (fun p => if p.1 = a then 1 else 0) := by
        apply List.map_congr_left
        intro p hp
        by_cases hpa : p.1 = a
        · rw [if_pos hpa, hpa, entriesForDeclared_warm hwarm]
          simp [List.countP_cons, DiffEntry.isRedundant, DiffEntry.address]
        · rw [if_neg hpa, List.countP_eq_zero]
          intro e he
          have haddr := (entriesForDeclared_address_kind e he).1
          simp only [Bool.and_eq_true, decide_eq_true_eq]
          rintro ⟨_, hea⟩
          exact hpa (haddr ▸ hea)
      rw [hcong]
      have hsum : ((scanDeclared declared).1.map (fun p => if p.1 = a then 1 else 0)).sum
          = (scanDeclared declared).1.countP (fun p => decide (p.1 = a)) :=
        sum_map_ite _ _
      rw [hsum,
        show (fun p : Nat × List Nat => decide (p.1 = a))
          = ((fun b => decide (b = a)) ∘ Prod.fst) from rfl,
        ← List.countP_map]
      exact countP_eq_one_of_nodup_mem hknd hkeys
    rw [h1, h2, h3]
  · have hrw : DiffEntry.Redundant a (2400 + 1900 * (slotsUnder declared a).dedup.length)
        = DiffEntry.Redundant a (ACCESS_LIST_ADDRESS_COST
            + (slotSetOf (slotsUnder declared a)).length * ACCESS_LIST_STORAGE_KEY_COST) := by
      rw [length_slotSetOf_eq_dedup]
      simp [ACCESS_LIST_ADDRESS_COST, ACCESS_LIST_STORAGE_KEY_COST]
      omega
    rw [validate_entries, hrw]
    apply List.mem_append.mpr
    apply Or.inl
    apply List.mem_append.mpr
    apply Or.inr
    apply List.mem_flatMap.mpr
    refine ⟨(a, slotSetOf (slotsUnder declared a)), hmemD, ?_⟩
    rw [entriesForDeclared_warm hwarm]
    exact List.mem_singleton.mpr rfl
  · intro e he hk
    rw [validate_entries] at he
    rcases List.mem_append.mp he with h1 | h1
    · rcases List.mem_append.mp h1 with h2 | h2
      · rcases dups_all_duplicate declared e h2 with ⟨b, k, rfl⟩
        simp [DiffEntry.isStale, DiffEntry.isIncomplete, DiffEntry.isMissing] at hk
      · rcases List.mem_flatMap.mp h2 with ⟨p, hp, hep⟩
        have haddr := (entriesForDeclared_address_kind e hep).1
        by_cases hpa : p.1 = a
        · exfalso
          rw [hpa, entriesForDeclared_warm hwarm] at hep
          rcases List.mem_singleton.mp hep with rfl
          simp [DiffEntry.isStale, DiffEntry.isIncomplete, DiffEntry.isMissing] at hk
        · rw [haddr]
          exact hpa
    · rcases missingEntries_shape e h1 with ⟨p, hp, rfl, hfnone⟩
      show (DiffEntry.Missing p.1 p.2 _).address ≠ a
      simp only [DiffEntry.address]
      intro hpa
      rw [hpa, hfindD] at hfnone
      cases hfnone

/-- Witness for C4: the sender address 200 declared with two slots, one of
them twice, yields one `Redundant` entry with waste 2400 + 2·1900. -/
theorem redundant_classification_witness :
    ((validate [⟨200, [7, 8, 7]⟩] (⟨[], []⟩ : OptimizedAccessList) 200 201 202).entries.countP
        (fun e => e.isRedundant && decide (e.address = 200)) = 1)
    ∧ DiffEntry.Redundant 200
        (2400 + 1900 * (slotsUnder [⟨200, [7, 8, 7]⟩] 200).dedup.length)
        ∈ (validate [⟨200, [7, 8, 7]⟩] (⟨[], []⟩ : OptimizedAccessList) 200 201 202).entries
    ∧ ∀ e ∈ (validate [⟨200, [7, 8, 7]⟩] (⟨[], []⟩ : OptimizedAccessList) 200 201 202).entries,
        (e.isStale || e.isIncomplete || e.isMissing) = true → e.address ≠ 200 :=
  redundant_classification [⟨200, [7, 8, 7]⟩] ⟨[], []⟩ 200 201 202 200
    (by decide) (by decide)

/-- Claim C1, counterexample. The two-cost-space equation fails for an
optimal list containing a duplicated item: the validator report has no
entries at all (so no `Missing` or `Incomplete`), the optimal list avoids
`tx_from`, `tx_to`, `coinbase` and all precompiles, yet the upfront-waste
sum is 0 while `waste_per_tx` is −1900. -/
theorem two_cost_space_counterexample :
    (validate [⟨20, [7]⟩] (⟨[⟨20, [7]⟩, ⟨20, [7]⟩], []⟩ : OptimizedAccessList)
        1 2 3).entries = []
    ∧ ((⟨[⟨20, [7]⟩, ⟨20, [7]⟩], []⟩ : OptimizedAccessList).list.all
        (fun i => !(decide (i.address = 1) || decide (i.address = 2)
          || decide (i.address = 3)
          || decide (i.address ∈ precompile_addresses)))) = true
    ∧ ((upfrontWasteSum (validate [⟨20, [7]⟩]
          (⟨[⟨20, [7]⟩, ⟨20, [7]⟩], []⟩ : OptimizedAccessList) 1 2 3).entries : Int)
        ≠ (validate [⟨20, [7]⟩]
            (⟨[⟨20, [7]⟩, ⟨20, [7]⟩], []⟩ : OptimizedAccessList)
            1 2 3).gas_summary.waste_per_tx) := by
  decide

/-- Claim C1, amended. Two-cost-space separation, for optimal lists in
canonical form: if the optimal list contains none of `tx_from`, `tx_to`,
`coinbase` nor any precompile, its addresses are pairwise distinct and the
storage keys of each item are pairwise distinct, and the report contains no
`Missing` and no `Incomplete` entry, then the sum of `gas_waste` over the
`Stale`, `Redundant` and `Duplicate` entries equals `waste_per_tx`. -/
theorem two_cost_space_separation (declared : AccessList)
    (optimal : OptimizedAccessList) (tx_from tx_to coinbase : Nat)
    (hclean : ∀ i ∈ optimal.list,
      ¬(i.address = tx_from ∨ i.address = tx_to ∨ i.address = coinbase
        ∨ i.address ∈ precompile_addresses))
    (hA : (addrsOf optimal.list).Nodup)
    (hS : ∀ i ∈ optimal.list, i.storage_keys.Nodup)
    (hMI : ∀ e ∈ (validate declared optimal tx_from tx_to coinbase).entries,
      e.isMissing = false ∧ e.isIncomplete = false) :
    (upfrontWasteSum (validate declared optimal tx_from tx_to coinbase).entries : Int)
      = (validate declared optimal tx_from tx_to coinbase).gas_summary.waste_per_tx := by
  have hDs := declaredMap_sorted declared
  have hDknd : (mapKeys (scanDeclared declared).1).Nodup := nodup_of_pairwise_lt hDs.1
  have hDvnd : ∀ p ∈ (scanDeclared declared).1, p.2.Nodup :=
    fun p hp => nodup_of_pairwise_lt (hDs.2 p hp)
  have hMs := optimalMap_sorted optimal.list
  have hMknd : (mapKeys (optimalMapOf optimal.list)).Nodup := nodup_of_pairwise_lt hMs.1
  have hMvnd : ∀ q ∈ optimalMapOf optimal.list, q.2.Nodup :=
    fun q hq => nodup_of_pairwise_lt (hMs.2 q hq)
  have hMnonwarm : ∀ b ∈ mapKeys (optimalMapOf optimal.list),
      ¬(b = tx_from ∨ b = tx_to ∨ b = coinbase ∨ b ∈ precompile_addresses) := by
    intro b hb
    have hmem : b ∈ addrsOf optimal.list := optimalMap_keys_mem.mp hb
    rcases List.mem_map.mp hmem with ⟨i, hi, rfl⟩
    exact hclean i hi
  have hsubKeys : ∀ b ∈ mapKeys (optimalMapOf optimal.list),
      b ∈ mapKeys (scanDeclared declared).1 := by
    intro b hb
    by_contra hnd
    rcases List.mem_map.mp hb with ⟨q, hq, rfl⟩
    have hfnone : findSlots q.1 (scanDeclared declared).1 = none :=
      findSlots_eq_none_iff.mpr hnd
    have hmem := missingEntries_mem hq hfnone
    have hfalse := (hMI _ (by
      rw [validate_entries]
      exact List.mem_append.mpr (Or.inr hmem))).1
    simp [DiffEntry.isMissing] at hfalse
  have hOnone : ∀ p ∈ (scanDeclared declared).1,
      (p.1 = tx_from ∨ p.1 = tx_to ∨ p.1 = coinbase ∨ p.1 ∈ precompile_addresses)
      → findSlots p.1 (optimalMapOf optimal.list) = none := by
    intro p _ hw
    rcases hf : findSlots p.1 (optimalMapOf optimal.list) with _ | O
    · rfl
    · exact absurd hw (hMnonwarm p.1 (findSlots_isSome_iff.mp (by simp [hf])))
  have hsub : ∀ p ∈ (scanDeclared declared).1,
      ∀ O, findSlots p.1 (optimalMapOf optimal.list) = some O
      → ∀ x ∈ O, x ∈ p.2 := by
    intro p hp O hf x hx
    by_contra hxs
    have hnonwarm := hMnonwarm p.1 (findSlots_isSome_iff.mp (by simp [hf]))
    have hflt : O.filter (fun y => y ∉ p.2) ≠ [] := by
      intro hnil
      have hy := List.filter_eq_nil_iff.mp hnil x hx
      simp [hxs] at hy
    have hincmem : DiffEntry.Incomplete p.1 (O.filter (fun y => y ∉ p.2))
        ((O.filter (fun y => y ∉ p.2)).length
          * (COLD_SLOAD_COST - WARM_STORAGE_READ_COST))
        ∈ entriesForDeclared tx_from tx_to coinbase (optimalMapOf optimal.list)
            p.1 p.2 := by
      rw [entriesForDeclared_opt hnonwarm hf]
      apply List.mem_append.mpr
      apply Or.inl
      rw [if_neg hflt]
      exact List.mem_singleton.mpr rfl
    have hfalse := (hMI _ (by
      rw [validate_entries]
      exact List.mem_append.mpr (Or.inl (List.mem_append.mpr
        (Or.inr (List.mem_flatMap.mpr ⟨p, hp, hincmem⟩)))))).2
    simp [DiffEntry.isIncomplete] at hfalse
  -- sums and ledgers
  have hdupfilter : (scanDeclared declared).2.filter upfrontKind
      = (scanDeclared declared).2 := by
    rw [List.filter_eq_self]
    intro e he
    rcases dups_all_duplicate declared e he with ⟨b, k, rfl⟩
    simp [upfrontKind, DiffEntry.isDuplicate]
  have hsplit : upfrontWasteSum (validate declared optimal tx_from tx_to coinbase).entries
      = sumWaste (scanDeclared declared).2
        + ((scanDeclared declared).1.map
            (fun p => upfrontWasteSum (entriesForDeclared tx_from tx_to coinbase
              (optimalMapOf optimal.list) p.1 p.2))).sum := by
    rw [validate_entries, upfrontWasteSum_append, upfrontWasteSum_append,
      upfront_missingEntries, upfrontWasteSum_flatMap]
    rw [show upfrontWasteSum (scanDeclared declared).2
      = sumWaste (scanDeclared declared).2 from by
        rw [upfrontWasteSum, hdupfilter]
        rfl]
    omega
  have hledger : sumWaste (scanDeclared declared).2
      + ACCESS_LIST_STORAGE_KEY_COST * mapSize (scanDeclared declared).1
      = ACCESS_LIST_STORAGE_KEY_COST * totalSlots declared := by
    have h0 := @scan_ledger declared (([] : SlotMap), ([] : List DiffEntry))
      (by simp [mapKeys]) (by simp)
    simpa [scanDeclared, sumWaste, mapSize] using h0
  have hph3 := phase3_sum (f := tx_from) (t := tx_to) (c := coinbase)
    (M := optimalMapOf optimal.list) (scanDeclared declared).1
    hOnone hsub hDvnd hMvnd
  have hconst := sum_map_const_add (scanDeclared declared).1
    ACCESS_LIST_ADDRESS_COST ACCESS_LIST_STORAGE_KEY_COST
  have hcnt := countP_isSome_eq_length hDknd hMknd hsubKeys
  have hlens := sum_optLens_eq_mapSize hDknd hMknd hsubKeys
  have hdc := access_list_gas_cost_closed_form declared
  have hoc := access_list_gas_cost_closed_form optimal.list
  have hdedupD : (addrsOf declared).dedup.length = (scanDeclared declared).1.length := by
    have hperm : (mapKeys (scanDeclared declared).1).Perm (addrsOf declared).dedup := by
      refine List.perm_of_nodup_nodup_toFinset_eq hDknd (List.nodup_dedup _) ?_
      ext b
      simp only [List.mem_toFinset, List.mem_dedup]
      exact declaredMap_keys_mem
    rw [← hperm.length_eq]
    simp [mapKeys]
  have hdedupO : (addrsOf optimal.list).dedup.length
      = (optimalMapOf optimal.list).length := by
    rw [List.dedup_eq_self.mpr hA, optimalMap_length hA]
    simp [addrsOf]
  have hMsize := optimalMap_size hA hS
  have hwaste : (validate declared optimal tx_from tx_to coinbase).gas_summary.waste_per_tx
      = (access_list_gas_cost declared : Int)
        - (access_list_gas_cost optimal.list : Int) := rfl
  rw [hwaste, hsplit]
  simp only [ACCESS_LIST_ADDRESS_COST, ACCESS_LIST_STORAGE_KEY_COST]
    at hledger hph3 hconst hdc hoc
  omega

/-- Witness for C1 (amended) at a concrete input: one stale declared
address, empty optimal list; upfront waste and `waste_per_tx` are both
4300. -/
theorem two_cost_space_separation_witness :
    (upfrontWasteSum (validate [⟨20, [9]⟩] (⟨[], []⟩ : OptimizedAccessList)
        1 2 3).entries : Int)
      = (validate [⟨20, [9]⟩] (⟨[], []⟩ : OptimizedAccessList)
          1 2 3).gas_summary.waste_per_tx :=
  two_cost_space_separation [⟨20, [9]⟩] ⟨[], []⟩ 1 2 3
    (by decide) (by decide) (by decide) (by decide)

end Hammer
